import Mathlib

/-!
Verification development for the claude-indexer repository.

The Python sources (chunker.py, indexer.py, embedding_cache.py,
search.py, config.py) are shallowly embedded below.  File contents are
modelled as lists of characters (`Str`), machine floats that are only
ever compared for equality (`st_mtime`) as integers, and embedding
vectors as values of an opaque type parameter.  Python's float division
in `_chunk_simple` is modelled by exact natural division (the two agree
except for float rounding, which none of the proved properties depend
on).
-/

set_option maxRecDepth 10000

abbrev Str := List Char

/-- Python `str.strip` whitespace set (ASCII part): " \t\n\r\x0b\x0c". -/
def isSpaceC (c : Char) : Bool :=
  c = ' ' || c = '\t' || c = '\n' || c = '\r' || c = '\x0b' || c = '\x0c'

/-- Python regex `\w` (ASCII part): alphanumerics and underscore. -/
def isWordC (c : Char) : Bool :=
  c.isAlphanum || c = '_'

def lstripC (l : Str) : Str := l.dropWhile isSpaceC

def rstripC (l : Str) : Str := (l.reverse.dropWhile isSpaceC).reverse

def stripC (l : Str) : Str := rstripC (lstripC l)

/-- Python `content.split("\n")`. -/
def splitLines (l : Str) : List Str := l.splitOn '\n'

/-- Python `"\n".join(lines)`. -/
def joinLines (ls : List Str) : Str := List.intercalate ['\n'] ls

/-- Number of newline characters in a character list. -/
def countNl (l : Str) : Nat := l.count '\n'

/-- Python slicing `content[a:b]` (for the in-range uses in the chunker). -/
def sliceC (l : Str) (a b : Nat) : Str := (l.take b).drop a

/-- Length of the maximal leading run of whitespace characters. -/
def leadWs (l : Str) : Nat := (l.takeWhile isSpaceC).length

/-- Length of the maximal leading run of word characters. -/
def leadWord (l : Str) : Nat := (l.takeWhile isWordC).length

def startsWithC (pre l : Str) : Bool := List.isPrefixOf pre l

-- ===================================================================
-- config.py constants
-- ===================================================================

def CHUNK_SIZE : Nat := 1500

def CHUNK_OVERLAP : Nat := 200

def MIN_CHUNK_SIZE : Nat := 100

def DEFAULT_TOP_K : Nat := 5

def MAX_TOP_K : Nat := 50

def USE_INCREMENTAL : Bool := true

-- ===================================================================
-- chunker.py : CodeChunk
-- ===================================================================

/-- `chunker.CodeChunk` (dataclass). -/
structure CodeChunk where
  content : Str
  file_path : String
  start_line : Nat
  end_line : Nat
  chunk_type : String
  context : Option Str
  deriving Repr, DecidableEq

-- ===================================================================
-- Regex matchers used by chunker.py, specialised to the fixed
-- patterns.  Each matcher is applied at a line-start position `s`
-- (the suffix of the content from that position) and returns the match
-- length together with group(1), or `none`.  Greedy `\s+` runs need no
-- backtracking for these patterns because a whitespace character can
-- never begin the literal that follows the run.
-- ===================================================================

/-- `^class\s+(\w+)` at a line start. -/
def matchClassAt (s : Str) : Option (Nat × Str) :=
  if startsWithC "class".data s then
    let r1 := s.drop 5
    let w := leadWs r1
    if w = 0 then none
    else
      let r2 := r1.drop w
      let n := leadWord r2
      if n = 0 then none
      else some (5 + w + n, r2.take n)
  else none

/-- `^def\s+(\w+)` at a line start. -/
def matchDefAt (s : Str) : Option (Nat × Str) :=
  if startsWithC "def".data s then
    let r1 := s.drop 3
    let w := leadWs r1
    if w = 0 then none
    else
      let r2 := r1.drop w
      let n := leadWord r2
      if n = 0 then none
      else some (3 + w + n, r2.take n)
  else none

/-- `^\s+def\s+(\w+)` at a line start. -/
def matchMethodAt (s : Str) : Option (Nat × Str) :=
  let w0 := leadWs s
  if w0 = 0 then none
  else
    let r0 := s.drop w0
    if startsWithC "def".data r0 then
      let r1 := r0.drop 3
      let w := leadWs r1
      if w = 0 then none
      else
        let r2 := r1.drop w
        let n := leadWord r2
        if n = 0 then none
        else some (w0 + 3 + w + n, r2.take n)
    else none

/--
`pattern.finditer(content)` for a `^`-anchored MULTILINE pattern:
scan every line-start position, emit non-overlapping matches
`(start, end, group1)`, and continue scanning from each match end.
`pos` is the absolute position of the suffix `s`; `atLS` records
whether `pos` is a line start (position 0 or preceded by a newline).
-/
def finditerGo (matchAt : Str → Option (Nat × Str)) :
    Nat → Str → Nat → Bool → List (Nat × Nat × Str)
  | 0, _, _, _ => []
  | _ + 1, [], _, _ => []
  | fuel + 1, c :: rest, pos, atLS =>
    if atLS then
      match matchAt (c :: rest) with
      | some (len, name) =>
          (pos, pos + len, name) ::
            finditerGo matchAt fuel (rest.drop (len - 1)) (pos + len)
              (((c :: rest).take len).getLast? = some '\n')
      | none => finditerGo matchAt fuel rest (pos + 1) (c = '\n')
    else finditerGo matchAt fuel rest (pos + 1) (c = '\n')

/-- The fuel `content.length` always suffices: every recursive call
strictly shortens the suffix (every match length is at least 1), so
the suffix empties no later than the fuel. -/
def finditer (matchAt : Str → Option (Nat × Str)) (content : Str) :
    List (Nat × Nat × Str) :=
  finditerGo matchAt content.length content 0 true

-- ===================================================================
-- chunker.py : helper scans
-- ===================================================================

/-- Loop body of `Chunker._find_python_function_end`: scan `lines[1:]`,
`acc` is the offset of the current line from `start_pos`, until a
non-empty line indents at or below `defIndent`. -/
def findFnEndGo (defIndent : Nat) : List Str → Nat → Option Nat
  | [], _ => none
  | line :: rest, acc =>
    if (stripC line).isEmpty = false then
      if leadWs line ≤ defIndent then some acc
      else findFnEndGo defIndent rest (acc + line.length + 1)
    else findFnEndGo defIndent rest (acc + line.length + 1)

/-- `Chunker._find_python_function_end`. -/
def find_python_function_end (content : Str) (startPos : Nat) : Nat :=
  let lines := splitLines (content.drop startPos)
  match lines with
  | [] => startPos
  | defLine :: rest =>
    let defIndent := leadWs defLine
    match findFnEndGo defIndent rest (defLine.length + 1) with
    | some off => startPos + off
    | none => content.length

/-- Import-context scan of `Chunker._chunk_python` (collect leading
`import `/`from ` lines, stop at the first other non-comment code line). -/
def pyImportsGo : List Str → List Str
  | [] => []
  | line :: rest =>
    let s := stripC line
    if startsWithC "import ".data s || startsWithC "from ".data s then
      s :: pyImportsGo rest
    else if s.isEmpty = false && startsWithC "#".data s = false then []
    else pyImportsGo rest

def pyImportContext (content : Str) : Option Str :=
  let imports := pyImportsGo (splitLines content)
  if imports.isEmpty then none else some (joinLines imports)

-- ===================================================================
-- chunker.py : _chunk_simple
-- ===================================================================

/-- `int(CHUNK_SIZE / avg_line_length)` with
`avg_line_length = len(content) / max(len(lines), 1)`, in exact
arithmetic, then `max(..., 10)`. -/
def linesPerChunk (contentLen numLines : Nat) : Nat :=
  max (CHUNK_SIZE * max numLines 1 / contentLen) 10

/-- `max(int(CHUNK_OVERLAP / avg_line_length), 2)`. -/
def overlapLines (contentLen numLines : Nat) : Nat :=
  max (CHUNK_OVERLAP * max numLines 1 / contentLen) 2

theorem overlap_lt_linesPerChunk (contentLen numLines : Nat) :
    overlapLines contentLen numLines < linesPerChunk contentLen numLines := by
  unfold overlapLines linesPerChunk CHUNK_SIZE CHUNK_OVERLAP
  set m := max numLines 1 with hm
  rcases Nat.lt_or_ge (200 * m / contentLen) 3 with h | h
  · have : max (200 * m / contentLen) 2 ≤ 2 := by omega
    have h10 : 10 ≤ max (1500 * m / contentLen) 10 := le_max_right _ _
    omega
  · have h7 : 7 * (200 * m / contentLen) ≤ 7 * (200 * m) / contentLen :=
      Nat.mul_div_le_mul_div_assoc 7 (200 * m) contentLen
    have h14 : 7 * (200 * m) ≤ 1500 * m := by ring_nf; omega
    have h15 : 7 * (200 * m) / contentLen ≤ 1500 * m / contentLen :=
      Nat.div_le_div_right h14
    have hf : 7 * (200 * m / contentLen) ≤ 1500 * m / contentLen := le_trans h7 h15
    have hg : max (200 * m / contentLen) 2 = 200 * m / contentLen := by omega
    have hl : 1500 * m / contentLen ≤ max (1500 * m / contentLen) 10 := le_max_left _ _
    omega

/-- The `while i < len(lines)` loop of `_chunk_simple`.  `step` is
`lines_per_chunk - overlap_lines`, proven positive above, so `i`
strictly increases and the loop runs at most `lines.length` times:
that fuel always suffices (a call with exhausted fuel has
`i ≥ lines.length` and returns `[]` exactly as the loop would). -/
def simpleLoopGo (lines : List Str) (fp : String) (lpc step : Nat) :
    Nat → Nat → List CodeChunk
  | 0, _ => []
  | fuel + 1, i =>
    if i < lines.length then
      let e := min (i + lpc) lines.length
      let chunkContent := joinLines ((lines.drop i).take (e - i))
      let rest := simpleLoopGo lines fp lpc step fuel (i + step)
      if (stripC chunkContent).isEmpty = false then
        ⟨chunkContent, fp, i + 1, e, "block", none⟩ :: rest
      else rest
    else []

/-- `Chunker._chunk_simple`. -/
def chunk_simple (content : Str) (fp : String) : List CodeChunk :=
  let lines := splitLines content
  let lpc := linesPerChunk content.length lines.length
  let ov := overlapLines content.length lines.length
  simpleLoopGo lines fp lpc (lpc - ov) lines.length 0

-- ===================================================================
-- chunker.py : _chunk_python and _extract_python_methods
-- ===================================================================

/-- `"\n".join(context_lines)` of `_extract_python_methods`. -/
def methodContext (className : Str) (importCtx : Option Str) : Str :=
  joinLines (("# Class: ".data ++ className) ::
    (match importCtx with
     | some ic => if ic.isEmpty then [] else [ic]
     | none => []))

/-- Loop of `_extract_python_methods` over `method_pattern.finditer`. -/
def pyMethodGo (classContent : Str) (fp : String) (classStartLine : Nat)
    (className : Str) (importCtx : Option Str) :
    List (Nat × Nat × Str) → List CodeChunk
  | [] => []
  | (s, _, _) :: rest =>
    let startLine := classStartLine + countNl (classContent.take s)
    let endPos := find_python_function_end classContent s
    let endLine := classStartLine + countNl (classContent.take endPos)
    let methodContent := rstripC (sliceC classContent s endPos)
    ⟨methodContent, fp, startLine, endLine, "method",
      some (methodContext className importCtx)⟩ ::
      pyMethodGo classContent fp classStartLine className importCtx rest

/-- `Chunker._extract_python_methods`. -/
def extract_python_methods (classContent : Str) (fp : String)
    (classStartLine : Nat) (className : Str) (importCtx : Option Str) :
    List CodeChunk :=
  pyMethodGo classContent fp classStartLine className importCtx
    (finditer matchMethodAt classContent)

/-- Loop of `_chunk_python` over `class_pattern.finditer`; the end of a
class is the start of the next class match (`class_pattern.search`
restarted at `match.end()`), or the end of the file. -/
def pyClassGo (content : Str) (fp : String) (importCtx : Option Str) :
    List (Nat × Nat × Str) → List CodeChunk
  | [] => []
  | (s, _, name) :: rest =>
    let endPos := match rest with
      | (s2, _, _) :: _ => s2
      | [] => content.length
    let startLine := countNl (content.take s) + 1
    let endLine := countNl (content.take endPos) + 1
    let classContent := rstripC (sliceC content s endPos)
    (if CHUNK_SIZE * 2 < classContent.length then
      extract_python_methods classContent fp startLine name importCtx
    else
      [⟨classContent, fp, startLine, endLine, "class", importCtx⟩]) ++
      pyClassGo content fp importCtx rest

/-- `content.rfind("\n", 0, s) + 1`. -/
def rfindNl (content : Str) (s : Nat) : Nat :=
  let pre := content.take s
  pre.length - (pre.reverse.takeWhile (fun c => c ≠ '\n')).length

/-- Loop of `_chunk_python` over `function_pattern.finditer` (with the
indentation re-check, vacuous for `^`-anchored matches, kept from the
source). -/
def pyFnGo (content : Str) (fp : String) (importCtx : Option Str) :
    List (Nat × Nat × Str) → List CodeChunk
  | [] => []
  | (s, _, _) :: rest =>
    let lineStart := rfindNl content s
    (if (stripC (sliceC content lineStart s)).isEmpty = false then []
    else
      let startLine := countNl (content.take s) + 1
      let endPos := find_python_function_end content s
      let endLine := countNl (content.take endPos) + 1
      let funcContent := rstripC (sliceC content s endPos)
      if funcContent.length ≤ CHUNK_SIZE * 2 then
        [⟨funcContent, fp, startLine, endLine, "function", importCtx⟩]
      else []) ++ pyFnGo content fp importCtx rest

/-- `Chunker._chunk_python`. -/
def chunk_python (content : Str) (fp : String) : List CodeChunk :=
  let importCtx := pyImportContext content
  let chunks :=
    pyClassGo content fp importCtx (finditer matchClassAt content) ++
    pyFnGo content fp importCtx (finditer matchDefAt content)
  if chunks.isEmpty then chunk_simple content fp else chunks

-- ===================================================================
-- chunker.py : _chunk_javascript, _chunk_ruby, _chunk_c_style
-- ===================================================================

/-- An optional regex group `(kw\s+)?`: consume the keyword and the
greedy whitespace run when both are present (backtracking cannot
produce any other outcome for the patterns below, since the literal
that follows can never begin with a whitespace character and is never
a prefix of the keyword). -/
def tryOptKwWs (kw : Str) (s : Str) : Str × Nat :=
  if startsWithC kw s then
    let r := s.drop kw.length
    let w := leadWs r
    if w = 0 then (s, 0) else (r.drop w, kw.length + w)
  else (s, 0)

/-- `^(export\s+)?(async\s+)?function\s+(\w+)` at a line start. -/
def matchJsFunc1 (s : Str) : Option (Nat × Str) :=
  let (s1, n1) := tryOptKwWs "export".data s
  let (s2, n2) := tryOptKwWs "async".data s1
  if startsWithC "function".data s2 then
    let r1 := s2.drop 8
    let w := leadWs r1
    if w = 0 then none
    else
      let r2 := r1.drop w
      let n := leadWord r2
      if n = 0 then none else some (n1 + n2 + 8 + w + n, r2.take n)
  else none

/-- `^(export\s+)?const\s+(\w+)\s*=\s*(async\s*)?\(` at a line start. -/
def matchJsFunc2 (s : Str) : Option (Nat × Str) :=
  let (s1, n1) := tryOptKwWs "export".data s
  if startsWithC "const".data s1 then
    let r1 := s1.drop 5
    let w := leadWs r1
    if w = 0 then none
    else
      let r2 := r1.drop w
      let n := leadWord r2
      if n = 0 then none
      else
        let name := r2.take n
        let r3 := r2.drop n
        let w2 := leadWs r3
        match r3.drop w2 with
        | '=' :: r5 =>
          let w3 := leadWs r5
          let r6 := r5.drop w3
          let (r7, n4) :=
            if startsWithC "async".data r6 then
              let ra := r6.drop 5
              let wa := leadWs ra
              (ra.drop wa, 5 + wa)
            else (r6, 0)
          match r7 with
          | '(' :: _ => some (n1 + 5 + w + n + w2 + 1 + w3 + n4 + 1, name)
          | _ => none
        | _ => none
  else none

/-- `^(export\s+)?const\s+(\w+)\s*=\s*(async\s+)?function` at a line start. -/
def matchJsFunc3 (s : Str) : Option (Nat × Str) :=
  let (s1, n1) := tryOptKwWs "export".data s
  if startsWithC "const".data s1 then
    let r1 := s1.drop 5
    let w := leadWs r1
    if w = 0 then none
    else
      let r2 := r1.drop w
      let n := leadWord r2
      if n = 0 then none
      else
        let name := r2.take n
        let r3 := r2.drop n
        let w2 := leadWs r3
        match r3.drop w2 with
        | '=' :: r5 =>
          let w3 := leadWs r5
          let r6 := r5.drop w3
          let (r7, n4) := tryOptKwWs "async".data r6
          if startsWithC "function".data r7 then
            some (n1 + 5 + w + n + w2 + 1 + w3 + n4 + 8, name)
          else none
        | _ => none
  else none

/-- `^(export\s+)?class\s+(\w+)` at a line start. -/
def matchJsClass (s : Str) : Option (Nat × Str) :=
  let (s1, n1) := tryOptKwWs "export".data s
  if startsWithC "class".data s1 then
    let r1 := s1.drop 5
    let w := leadWs r1
    if w = 0 then none
    else
      let r2 := r1.drop w
      let n := leadWord r2
      if n = 0 then none else some (n1 + 5 + w + n, r2.take n)
  else none

/-- Index of the first `'{'` at or after `start`, if any
(`content.find("{", start_pos)`). -/
def findBraceFrom (content : Str) (start : Nat) : Option Nat :=
  match (content.drop start).findIdx? (fun c => c = '{') with
  | some k => some (start + k)
  | none => none

/-- Brace-counting loop of `_find_matching_brace`; `pos` is the
absolute index of the head of the suffix, `count` the open-brace
count.  Returns the position just past the balancing brace. -/
def braceGo : Str → Nat → Nat → Option Nat
  | [], _, _ => none
  | c :: rest, pos, count =>
    let count1 := if c = '{' then count + 1
      else if c = '}' then count - 1 else count
    if count1 = 0 then some (pos + 1) else braceGo rest (pos + 1) count1

/-- `Chunker._find_matching_brace`. -/
def find_matching_brace (content : Str) (startPos : Nat) : Nat :=
  match findBraceFrom content startPos with
  | none => min (startPos + CHUNK_SIZE) content.length
  | some openPos =>
    match braceGo (content.drop (openPos + 1)) (openPos + 1) 1 with
    | some p => p
    | none => content.length

/-- Import-context scan of `_chunk_javascript`. -/
def jsImportContext (content : Str) : Option Str :=
  let imports := (splitLines content).filterMap (fun line =>
    let s := stripC line
    if startsWithC "import ".data s || startsWithC "export ".data s then
      some s
    else none)
  if imports.isEmpty then none else some (joinLines (imports.take 10))

/-- Class loop of `_chunk_javascript`. -/
def jsClassGo (content : Str) (fp : String) (importCtx : Option Str) :
    List (Nat × Nat × Str) → List CodeChunk
  | [] => []
  | (s, _, _) :: rest =>
    let endPos := find_matching_brace content s
    let startLine := countNl (content.take s) + 1
    let endLine := countNl (content.take endPos) + 1
    let classContent := sliceC content s endPos
    ⟨classContent, fp, startLine, endLine, "class", importCtx⟩ ::
      jsClassGo content fp importCtx rest

/-- Function loop of `_chunk_javascript` (for one of the three
function patterns). -/
def jsFnGo (content : Str) (fp : String) (importCtx : Option Str) :
    List (Nat × Nat × Str) → List CodeChunk
  | [] => []
  | (s, _, _) :: rest =>
    let endPos := find_matching_brace content s
    let startLine := countNl (content.take s) + 1
    let endLine := countNl (content.take endPos) + 1
    let funcContent := sliceC content s endPos
    (if funcContent.length ≤ CHUNK_SIZE * 2 then
      [⟨funcContent, fp, startLine, endLine, "function", importCtx⟩]
    else []) ++ jsFnGo content fp importCtx rest

/-- `Chunker._chunk_javascript`. -/
def chunk_javascript (content : Str) (fp : String) : List CodeChunk :=
  let importCtx := jsImportContext content
  let chunks :=
    jsClassGo content fp importCtx (finditer matchJsClass content) ++
    jsFnGo content fp importCtx (finditer matchJsFunc1 content) ++
    jsFnGo content fp importCtx (finditer matchJsFunc2 content) ++
    jsFnGo content fp importCtx (finditer matchJsFunc3 content)
  if chunks.isEmpty then chunk_simple content fp else chunks

/-- `re.match(r"^(class|module|def|if|unless|case|while|until|for|begin)\b", stripped)`. -/
def matchRubyKw (stripped : Str) : Bool :=
  ["class", "module", "def", "if", "unless", "case", "while", "until",
    "for", "begin"].any (fun kw =>
      startsWithC kw.data stripped &&
        (match (stripped.drop kw.length).head? with
         | some c => isWordC c = false
         | none => true))

/-- Loop of `_find_ruby_block_end` over `lines[1:]`; `pos` is the
absolute position of the current line start; `depth ≥ 1` on entry. -/
def rubyEndGo : Nat → List Str → Nat → Option Nat
  | _, [], _ => none
  | depth, line :: rest, pos =>
    let stripped := stripC line
    let depth1 := if matchRubyKw stripped then depth + 1 else depth
    if stripped = "end".data || startsWithC "end ".data stripped then
      if depth1 - 1 = 0 then some (pos + line.length)
      else rubyEndGo (depth1 - 1) rest (pos + line.length + 1)
    else rubyEndGo depth1 rest (pos + line.length + 1)

/-- `Chunker._find_ruby_block_end`. -/
def find_ruby_block_end (content : Str) (startPos : Nat) : Nat :=
  match splitLines (content.drop startPos) with
  | [] => content.length
  | first :: rest =>
    match rubyEndGo 1 rest (startPos + first.length + 1) with
    | some p => p
    | none => content.length

/-- Class loop of `_chunk_ruby`. -/
def rubyClassGo (content : Str) (fp : String) :
    List (Nat × Nat × Str) → List CodeChunk
  | [] => []
  | (s, _, _) :: rest =>
    let endPos := find_ruby_block_end content s
    let startLine := countNl (content.take s) + 1
    let endLine := countNl (content.take endPos) + 1
    let classContent := sliceC content s endPos
    ⟨classContent, fp, startLine, endLine, "class", none⟩ ::
      rubyClassGo content fp rest

/-- `Chunker._chunk_ruby` (the class pattern is the same regex as the
Python one; the method pattern in the source is assigned but unused). -/
def chunk_ruby (content : Str) (fp : String) : List CodeChunk :=
  let chunks := rubyClassGo content fp (finditer matchClassAt content)
  if chunks.isEmpty then chunk_simple content fp else chunks

/-- `Chunker._chunk_c_style`. -/
def chunk_c_style (content : Str) (fp : String) : List CodeChunk :=
  chunk_simple content fp

/-- `Chunker.chunk_file` after a successful read: empty/whitespace
check, dispatch on the lowercased extension, then the minimum-size
filter. -/
def chunk_file (ext : String) (content : Str) (fp : String) : List CodeChunk :=
  if (stripC content).isEmpty then []
  else
    let chunks :=
      if ext = ".py" then chunk_python content fp
      else if ext ∈ [".js", ".jsx", ".ts", ".tsx", ".mjs", ".cjs"] then
        chunk_javascript content fp
      else if ext = ".rb" then chunk_ruby content fp
      else if ext ∈ [".go", ".rs", ".java", ".kt"] then
        chunk_c_style content fp
      else chunk_simple content fp
    chunks.filter (fun c => MIN_CHUNK_SIZE ≤ (stripC c.content).length)

-- ===================================================================
-- Python dict as an association list (insertion order preserved,
-- insert replaces in place)
-- ===================================================================

def dictLookup {α : Type} (d : List (String × α)) (k : String) : Option α :=
  (d.find? (fun p => p.1 = k)).map Prod.snd

def dictInsert {α : Type} : List (String × α) → String → α →
    List (String × α)
  | [], k, v => [(k, v)]
  | (a, b) :: rest, k, v =>
    if a = k then (k, v) :: rest else (a, b) :: dictInsert rest k v

/-- Python `dict.update`. -/
def dictUpdate {α : Type} (d upd : List (String × α)) : List (String × α) :=
  upd.foldl (fun acc p => dictInsert acc p.1 p.2) d

-- ===================================================================
-- indexer.py : FileMetadata and change detection
-- ===================================================================

/-- `indexer.FileMetadata` (dataclass); `mtime` is a float compared
only for equality, modelled as an integer-valued timestamp. -/
structure FileMetadata where
  path : String
  mtime : Int
  size : Int
  hash : String
  deriving Repr, DecidableEq

/-- `Indexer._has_file_changed`.  `computeHash` models the lazy
`self._compute_file_hash(file_path)` call. -/
def has_file_changed (force : Bool)
    (file_metadata : List (String × FileMetadata)) (path_str : String)
    (st_mtime st_size : Int) (computeHash : Unit → String) : Bool :=
  if force || !USE_INCREMENTAL then true
  else
    match dictLookup file_metadata path_str with
    | none => true
    | some meta =>
      if st_mtime ≠ meta.mtime || st_size ≠ meta.size then true
      else computeHash () ≠ meta.hash

/-- `Indexer._has_file_changed`, instrumented with whether the
content-hash recomputation (the expensive path) was performed.  The
first component is exactly `has_file_changed`. -/
def has_file_changed_instr (force : Bool)
    (file_metadata : List (String × FileMetadata)) (path_str : String)
    (st_mtime st_size : Int) (computeHash : Unit → String) : Bool × Bool :=
  if force || !USE_INCREMENTAL then (true, false)
  else
    match dictLookup file_metadata path_str with
    | none => (true, false)
    | some meta =>
      if st_mtime ≠ meta.mtime || st_size ≠ meta.size then (true, false)
      else (computeHash () ≠ meta.hash, true)

theorem has_file_changed_instr_fst (force : Bool)
    (fm : List (String × FileMetadata)) (p : String) (mt sz : Int)
    (ch : Unit → String) :
    (has_file_changed_instr force fm p mt sz ch).1 =
      has_file_changed force fm p mt sz ch := by
  unfold has_file_changed has_file_changed_instr
  cases force <;> cases h : dictLookup fm p <;>
    simp [USE_INCREMENTAL, h] <;> split <;> simp_all

/-- `Indexer._process_file` (pure part): skip unchanged files, chunk
the rest, return `(chunks, metadata)` or `None` when the file is
unchanged or produced no chunks. -/
def process_file (force : Bool)
    (file_metadata : List (String × FileMetadata)) (path_str : String)
    (ext : String) (content : Str) (st_mtime st_size : Int)
    (hashFn : Str → String) : Option (List CodeChunk × FileMetadata) :=
  if has_file_changed force file_metadata path_str st_mtime st_size
      (fun _ => hashFn content) = false then none
  else
    let chunks := chunk_file ext content path_str
    if chunks.isEmpty then none
    else some (chunks, ⟨path_str, st_mtime, st_size, hashFn content⟩)

-- ===================================================================
-- indexer.py : the Embedding / Persisting / metadata-commit tail of
-- `Indexer.index`, with the two external collaborators (the embedder
-- and the LanceDB table) as fallible parameters.  The second
-- component of the result is the persisted FileRecord (metadata)
-- store; it is rewritten only by the final `_save_metadata` step.
-- ===================================================================

def index_run {V D : Type} (metaStore : List (String × FileMetadata))
    (db : D) (all_chunks : List CodeChunk)
    (new_metadata : List (String × FileMetadata))
    (embedFn : List CodeChunk → Except String (List V))
    (storeFn : D → List CodeChunk → List V → Except String D) :
    Except String Unit × List (String × FileMetadata) × D :=
  if all_chunks.isEmpty then (.ok (), metaStore, db)
  else
    match embedFn all_chunks with
    | .error e => (.error e, metaStore, db)
    | .ok embeddings =>
      match storeFn db all_chunks embeddings with
      | .error e => (.error e, metaStore, db)
      | .ok db1 => (.ok (), dictUpdate metaStore new_metadata, db1)

-- ===================================================================
-- indexer.py : `_save_metadata` / `_load_metadata` as file-system
-- operations.  `_save_metadata` serialises the whole record set and
-- writes it directly to `metadata.json` (`open(path, "w")` followed by
-- `json.dump`); there is no temporary file and no rename.  An
-- interrupted in-place write of `data` stopped after `k` characters
-- leaves `data.take k` in the file.
-- ===================================================================

structure Fs where
  files : List (String × String)
  deriving Repr, DecidableEq

def METADATA_PATH : String := "metadata.json"

def fsWrite (fs : Fs) (path content : String) : Fs :=
  ⟨dictInsert fs.files path content⟩

/-- `Indexer._save_metadata`, successful run: one in-place write of the
full serialised record set. -/
def save_metadata (fs : Fs) (serialized : String) : Fs :=
  fsWrite fs METADATA_PATH serialized

/-- `Indexer._save_metadata` interrupted after `k` characters of the
in-place write: the file holds a truncated prefix. -/
def save_metadata_interrupted (fs : Fs) (serialized : String) (k : Nat) : Fs :=
  fsWrite fs METADATA_PATH (serialized.take k)

/-- `Indexer._load_metadata`: parse the metadata file, fall back to an
empty record set on any error (`except Exception`). -/
def load_metadata
    (parse : String → Option (List (String × FileMetadata)))
    (fs : Fs) : List (String × FileMetadata) :=
  match dictLookup fs.files METADATA_PATH with
  | none => []
  | some s => (parse s).getD []

-- ===================================================================
-- embedding_cache.py : EmbeddingCache.  Embedding vectors are lists
-- over an opaque element type `A` (Python lists of floats); `hashFn`
-- models `_hash_content` (MD5 of the content).
-- ===================================================================

structure EmbeddingCacheSt (A : Type) where
  cache : List (String × List A)
  hits : Nat
  misses : Nat

/-- `EmbeddingCache.get`. -/
def cache_get {A : Type} (hashFn : String → String)
    (c : EmbeddingCacheSt A) (content : String) :
    Option (List A) × EmbeddingCacheSt A :=
  match dictLookup c.cache (hashFn content) with
  | some v => (some v, { c with hits := c.hits + 1 })
  | none => (none, { c with misses := c.misses + 1 })

/-- `EmbeddingCache.put`. -/
def cache_put {A : Type} (hashFn : String → String)
    (c : EmbeddingCacheSt A) (content : String) (v : List A) :
    EmbeddingCacheSt A :=
  { c with cache := dictInsert c.cache (hashFn content) v }

/-- First loop of `get_or_compute_batch`: check the cache for each
content in order, collecting cached embeddings, `[]` placeholders,
missing indices and missing contents. -/
def batchScanGo {A : Type} (hashFn : String → String) :
    EmbeddingCacheSt A → List String → Nat →
    List (List A) × List Nat × List String × EmbeddingCacheSt A
  | c, [], _ => ([], [], [], c)
  | c, content :: rest, i =>
    match cache_get hashFn c content with
    | (some v, c1) =>
      let (es, mi, mc, c2) := batchScanGo hashFn c1 rest (i + 1)
      (v :: es, mi, mc, c2)
    | (none, c1) =>
      let (es, mi, mc, c2) := batchScanGo hashFn c1 rest (i + 1)
      ([] :: es, i :: mi, content :: mc, c2)

/-- Second loop of `get_or_compute_batch`: fill each missing index with
its computed embedding and store it in the cache
(`self.put(missing_contents[missing_indices.index(idx)], embedding)`).
`none` models an uncaught `ValueError`/`IndexError`. -/
def batchFillGo {A : Type} (hashFn : String → String) :
    List (List A) → EmbeddingCacheSt A → List (Nat × List A) →
    List Nat → List String → Option (List (List A) × EmbeddingCacheSt A)
  | es, c, [], _, _ => some (es, c)
  | es, c, (idx, emb) :: rest, mi, mc =>
    match mc.get? (mi.indexOf idx) with
    | none => none
    | some content =>
      batchFillGo hashFn (es.set idx emb) (cache_put hashFn c content emb)
        rest mi mc

/-- `EmbeddingCache.get_or_compute_batch`.  Returns
`(embeddings, hits, misses)` as in the source, plus the final cache
state and the list of batches passed to `compute_fn` (the model's call
log; the source calls `compute_fn` at most once).  `none` models an
uncaught exception (`zip(..., strict=True)` mismatch). -/
def get_or_compute_batch {A : Type} (hashFn : String → String)
    (c : EmbeddingCacheSt A) (contents : List String)
    (computeFn : List String → List (List A)) :
    Option (List (List A) × Nat × Nat × EmbeddingCacheSt A ×
      List (List String)) :=
  let (embeddings, mi, mc, c1) := batchScanGo hashFn c contents 0
  if mc.isEmpty then some (embeddings, c1.hits, c1.misses, c1, [])
  else
    let newEmbeddings := computeFn mc
    if newEmbeddings.length = mi.length then
      match batchFillGo hashFn embeddings c1 (mi.zip newEmbeddings) mi mc with
      | some (es, c2) => some (es, c2.hits, c2.misses, c2, [mc])
      | none => none
    else none

-- ===================================================================
-- search.py : Searcher
-- ===================================================================

def RESULT_CONTEXT_LINES : Nat := 3

/-- `search.SearchResult`; the score is LanceDB's distance, of opaque
type `S`. -/
structure SearchResult (S : Type) where
  file_path : String
  start_line : Nat
  end_line : Nat
  score : S
  chunk_type : String
  content : Str
  context_before : Str
  context_after : Str

/-- A row of the `chunks` table as returned by the vector search. -/
structure DbRow (S : Type) where
  file_path : String
  start_line : Nat
  end_line : Nat
  chunk_type : String
  distance : S

/-- `Searcher._read_fresh_content` (successful read). -/
def read_fresh_content (fileContent : Str) (startLine endLine : Nat) :
    Str × Str × Str :=
  let lines := splitLines fileContent
  let content := joinLines ((lines.drop (startLine - 1)).take
    (endLine - (startLine - 1)))
  let contextStart := startLine - 1 - RESULT_CONTEXT_LINES
  let contextBefore := joinLines ((lines.drop contextStart).take
    (startLine - 1 - contextStart))
  let contextEnd := min lines.length (endLine + RESULT_CONTEXT_LINES)
  let contextAfter := joinLines ((lines.drop endLine).take
    (contextEnd - endLine))
  (content, contextBefore, contextAfter)

/-- The chunk text re-extracted at the stored line numbers, as
`_read_fresh_content` extracts it (`lines[start_line - 1 : end_line]`). -/
def readFreshLines (fileContent : Str) (startLine endLine : Nat) : Str :=
  (read_fresh_content fileContent startLine endLine).1

/-- `Searcher.search`: clamp `top_k` to `MAX_TOP_K`, run the vector
search with that limit (`.limit(top_k).to_list()`), and build a
`SearchResult` per returned row, reading fresh content from disk.
`vectorSearch q` is the LanceDB ranking of all rows for the query
embedding of `q`, and `readFile` the project file contents. -/
def searcher_search {Q S : Type} (vectorSearch : Q → List (DbRow S))
    (readFile : String → Str) (query : Q) (top_k : Nat) :
    List (SearchResult S) :=
  let topk := min top_k MAX_TOP_K
  let results := (vectorSearch query).take topk
  results.map (fun row =>
    let (content, ctxB, ctxA) :=
      read_fresh_content (readFile row.file_path) row.start_line row.end_line
    ⟨row.file_path, row.start_line, row.end_line, row.distance,
      row.chunk_type, content, ctxB, ctxA⟩)

/-- The error raised by `Searcher.__init__` when no index exists. -/
inductive SearchInitError
  | noIndexFound (msg : String)
  deriving Repr, DecidableEq

/-- `Searcher.__init__`: raise `FileNotFoundError` when the index
database path does not exist. -/
def searcher_init (dbPathExists : Bool) (projectPath : String) :
    Except SearchInitError Unit :=
  if dbPathExists = false then
    .error (.noIndexFound ("No index found for " ++ projectPath ++
      ". Run code-index " ++ projectPath ++ " first."))
  else .ok ()

/-- `search.search` convenience entry point: construct a `Searcher`
(which checks the index), then run the query. -/
def search_project {Q S : Type} (dbPathExists : Bool)
    (projectPath : String) (vectorSearch : Q → List (DbRow S))
    (readFile : String → Str) (query : Q) (top_k : Nat) :
    Except SearchInitError (List (SearchResult S)) :=
  match searcher_init dbPathExists projectPath with
  | .error e => .error e
  | .ok _ => .ok (searcher_search vectorSearch readFile query top_k)

-- ===================================================================
-- Association-list (Python dict) lemmas
-- ===================================================================

theorem dictLookup_dictInsert_self {α : Type} (d : List (String × α))
    (k : String) (v : α) : dictLookup (dictInsert d k v) k = some v := by
  induction d with
  | nil => simp [dictLookup, dictInsert, List.find?]
  | cons a rest ih =>
    obtain ⟨a1, a2⟩ := a
    by_cases h : a1 = k
    · simp [dictLookup, dictInsert, h, List.find?]
    · simpa [dictLookup, dictInsert, h, List.find?] using ih

theorem dictLookup_dictInsert_ne {α : Type} (d : List (String × α))
    (k p : String) (v : α) (h : p ≠ k) :
    dictLookup (dictInsert d k v) p = dictLookup d p := by
  induction d with
  | nil => simp [dictLookup, dictInsert, List.find?, Ne.symm h]
  | cons a rest ih =>
    obtain ⟨a1, a2⟩ := a
    by_cases ha : a1 = k
    · subst ha
      simp [dictLookup, dictInsert, List.find?, Ne.symm h]
    · by_cases hap : a1 = p
      · simp [dictLookup, dictInsert, ha, hap, List.find?, h]
      · simpa [dictLookup, dictInsert, ha, hap, List.find?] using ih

-- ===================================================================
-- C1 : a content change with matching mtime/size is still detected
-- ===================================================================

/--
C1: for a file whose stored record matches the current mtime and size
but whose content differs from the recorded content, the change
detector still classifies the file as changed (and the instrumented
detector shows the content-hash check was performed); consequently a
changed file that yields chunks is re-chunked by `_process_file`, not
skipped.
-/
theorem claim_C1_hash_check_detects_change
    (fm : List (String × FileMetadata)) (p ext : String)
    (meta : FileMetadata) (oldContent newContent : Str) (mt sz : Int)
    (hashFn : Str → String)
    (hlk : dictLookup fm p = some meta)
    (hmt : mt = meta.mtime) (hsz : sz = meta.size)
    (hold : meta.hash = hashFn oldContent)
    (hne : newContent ≠ oldContent)
    (hinj : Function.Injective hashFn) :
    has_file_changed false fm p mt sz (fun _ => hashFn newContent) = true ∧
    (has_file_changed_instr false fm p mt sz
      (fun _ => hashFn newContent)).2 = true ∧
    (chunk_file ext newContent p ≠ [] →
      process_file false fm p ext newContent mt sz hashFn =
        some (chunk_file ext newContent p, ⟨p, mt, sz, hashFn newContent⟩)) := by
  have hhash : hashFn newContent ≠ meta.hash := by
    rw [hold]
    intro hcol
    exact hne (hinj hcol)
  have h1 : has_file_changed false fm p mt sz (fun _ => hashFn newContent)
      = true := by
    unfold has_file_changed
    simp [USE_INCREMENTAL, hlk, hmt, hsz, hhash]
  refine ⟨h1, ?_, ?_⟩
  · unfold has_file_changed_instr
    simp [USE_INCREMENTAL, hlk, hmt, hsz]
  · intro hch
    unfold process_file
    simp [h1, hch]

/-- Witness for C1 at a concrete input. -/
theorem claim_C1_witness :
    has_file_changed false [("a.py", ⟨"a.py", 1, 10, "old"⟩)] "a.py" 1 10
      (fun _ => String.mk "x".data) = true ∧
    (has_file_changed_instr false [("a.py", ⟨"a.py", 1, 10, "old"⟩)] "a.py"
      1 10 (fun _ => String.mk "x".data)).2 = true := by
  have h := claim_C1_hash_check_detects_change
    [("a.py", ⟨"a.py", 1, 10, "old"⟩)] "a.py" ".py"
    ⟨"a.py", 1, 10, "old"⟩ "old".data "x".data 1 10
    (fun l => String.mk l) (by decide) rfl rfl (by decide) (by decide)
    (fun a b hab => congrArg String.data hab)
  exact ⟨h.1, h.2.1⟩

-- ===================================================================
-- C2 : when is the hash recomputed?
-- ===================================================================

/--
C2 counterexample: at a concrete input whose mtime and size both match
the stored record, the detector classifies the file as changed and the
instrumented run shows the content hash *was* recomputed — refuting
the claim that a mtime/size match yields "unchanged" without a hash
recomputation.
-/
theorem claim_C2_counterexample :
    dictLookup [("a.py", (⟨"a.py", 1, 10, "old"⟩ : FileMetadata))] "a.py"
      = some ⟨"a.py", 1, 10, "old"⟩ ∧
    has_file_changed_instr false
      [("a.py", (⟨"a.py", 1, 10, "old"⟩ : FileMetadata))] "a.py" 1 10
      (fun _ => "new") = (true, true) := by
  constructor
  · decide
  · decide

/--
C2 (amended): the detector recomputes the content hash only when mtime
and size BOTH match the stored record; when either differs the file is
classified changed without recomputing the hash, and when both match
the hash comparison alone decides the classification.
-/
theorem claim_C2_amended_hash_on_match_only
    (fm : List (String × FileMetadata)) (p : String) (meta : FileMetadata)
    (mt sz : Int) (ch : Unit → String)
    (hlk : dictLookup fm p = some meta) :
    (¬(mt = meta.mtime ∧ sz = meta.size) →
      has_file_changed_instr false fm p mt sz ch = (true, false)) ∧
    (mt = meta.mtime → sz = meta.size →
      has_file_changed_instr false fm p mt sz ch =
        (decide (ch () ≠ meta.hash), true)) := by
  constructor
  · intro hne
    unfold has_file_changed_instr
    have : ¬mt = meta.mtime ∨ ¬sz = meta.size := by tauto
    simp [USE_INCREMENTAL, hlk, this]
  · intro hmt hsz
    unfold has_file_changed_instr
    simp [USE_INCREMENTAL, hlk, hmt, hsz]

/-- Witness for the amended C2 at concrete inputs: a hash-match run
(hash recomputed, classified unchanged) and a size-mismatch run (hash
not recomputed, classified changed). -/
theorem claim_C2_amended_witness :
    has_file_changed_instr false
      [("a.py", (⟨"a.py", 1, 10, "old"⟩ : FileMetadata))] "a.py" 1 10
      (fun _ => "old") = (false, true) ∧
    has_file_changed_instr false
      [("a.py", (⟨"a.py", 1, 10, "old"⟩ : FileMetadata))] "a.py" 1 11
      (fun _ => "old") = (true, false) := by
  constructor
  · have h := (claim_C2_amended_hash_on_match_only
      [("a.py", ⟨"a.py", 1, 10, "old"⟩)] "a.py" ⟨"a.py", 1, 10, "old"⟩
      1 10 (fun _ => "old") (by decide)).2 rfl rfl
    simpa using h
  · have h := (claim_C2_amended_hash_on_match_only
      [("a.py", ⟨"a.py", 1, 10, "old"⟩)] "a.py" ⟨"a.py", 1, 10, "old"⟩
      1 11 (fun _ => "old") (by decide)).1 (by simp)
    exact h

-- ===================================================================
-- C4 : embedding/persisting failures commit nothing
-- ===================================================================

/--
C4: if the embedding stage or the persisting stage of an indexing run
fails, the run aborts with that error and the persisted FileRecord
(metadata) store is exactly what it was before the run.
-/
theorem claim_C4_error_preserves_metadata {V D : Type}
    (metaStore : List (String × FileMetadata)) (db : D)
    (all_chunks : List CodeChunk)
    (new_metadata : List (String × FileMetadata))
    (embedFn : List CodeChunk → Except String (List V))
    (storeFn : D → List CodeChunk → List V → Except String D) (e : String)
    (herr : (index_run metaStore db all_chunks new_metadata embedFn
      storeFn).1 = .error e) :
    (index_run metaStore db all_chunks new_metadata embedFn storeFn).2.1 =
      metaStore := by
  unfold index_run at herr ⊢
  by_cases hc : all_chunks.isEmpty
  · simp [hc] at herr
  · simp only [hc, Bool.false_eq_true, if_false] at herr ⊢
    cases hemb : embedFn all_chunks with
    | error e2 => simp [hemb]
    | ok embs =>
      simp only [hemb] at herr ⊢
      cases hst : storeFn db all_chunks embs with
      | error e3 => simp [hst]
      | ok db1 => simp [hst] at herr

/-- Witness for C4: a concrete run whose embedding stage fails leaves
the concrete metadata store untouched. -/
theorem claim_C4_witness :
    (index_run (V := Nat) (D := Nat)
      [("a.py", (⟨"a.py", 1, 10, "h"⟩ : FileMetadata))] 0
      [⟨"x".data, "a.py", 1, 1, "block", none⟩]
      [("a.py", ⟨"a.py", 2, 11, "h2"⟩)]
      (fun _ => .error "embedding failed")
      (fun d _ _ => .ok d)).2.1 =
      [("a.py", (⟨"a.py", 1, 10, "h"⟩ : FileMetadata))] :=
  claim_C4_error_preserves_metadata _ _ _ _ _ _ "embedding failed" rfl

-- ===================================================================
-- C5 : metadata persistence is an in-place write, not atomic
-- ===================================================================

/--
C5 counterexample: `_save_metadata` writes the serialised record set
in place; a write interrupted after 2 characters leaves the metadata
file holding "NE", which is neither the previously committed "OLD"
nor the new "NEWDATA" — the previously committed store is corrupted,
refuting the write-to-temporary-and-swap claim.
-/
theorem claim_C5_counterexample :
    dictLookup (save_metadata_interrupted ⟨[(METADATA_PATH, "OLD")]⟩
      "NEWDATA" 2).files METADATA_PATH = some "NE" ∧
    ("NE" : String) ≠ "OLD" ∧ ("NE" : String) ≠ "NEWDATA" := by
  refine ⟨?_, by decide, by decide⟩
  decide

/--
C5 (amended): at the end of a successful run the full FileRecord set
is rewritten by a single direct in-place write to `metadata.json` (no
temporary location, no swap: no other path is touched); an interrupted
write can therefore corrupt the previously committed store (see the
counterexample), and `_load_metadata` falls back to an empty record
set when the file no longer parses.
-/
theorem claim_C5_amended_in_place_write (fs : Fs) (serialized : String) :
    dictLookup (save_metadata fs serialized).files METADATA_PATH =
      some serialized ∧
    (∀ p, p ≠ METADATA_PATH →
      dictLookup (save_metadata fs serialized).files p =
        dictLookup fs.files p) ∧
    (∀ parse s, parse s = none →
      load_metadata parse ⟨[(METADATA_PATH, s)]⟩ = []) := by
  refine ⟨?_, ?_, ?_⟩
  · exact dictLookup_dictInsert_self fs.files METADATA_PATH serialized
  · intro p hp
    exact dictLookup_dictInsert_ne fs.files METADATA_PATH p serialized hp
  · intro parse s hps
    unfold load_metadata
    simp [dictLookup, List.find?, hps]

/-- Witness for the amended C5 at a concrete file system. -/
theorem claim_C5_amended_witness :
    dictLookup (save_metadata ⟨[(METADATA_PATH, "OLD"), ("other", "o")]⟩
      "NEWDATA").files METADATA_PATH = some "NEWDATA" ∧
    dictLookup (save_metadata ⟨[(METADATA_PATH, "OLD"), ("other", "o")]⟩
      "NEWDATA").files "other" = some "o" := by
  have h := claim_C5_amended_in_place_write
    ⟨[(METADATA_PATH, "OLD"), ("other", "o")]⟩ "NEWDATA"
  refine ⟨h.1, ?_⟩
  have h2 := h.2.1 "other" (by decide)
  rw [h2]
  decide

-- ===================================================================
-- C9 : searching without an index raises a distinct error
-- ===================================================================

/--
C9: searching a project for which no index database exists yields the
distinct no-index error (telling the caller to index first) and never
a result list — in particular never an empty result list.
-/
theorem claim_C9_no_index_error {Q S : Type} (dbPathExists : Bool)
    (projectPath : String) (vectorSearch : Q → List (DbRow S))
    (readFile : String → Str) (q : Q) (top_k : Nat)
    (h : dbPathExists = false) :
    search_project dbPathExists projectPath vectorSearch readFile q top_k =
      .error (.noIndexFound ("No index found for " ++ projectPath ++
        ". Run code-index " ++ projectPath ++ " first.")) ∧
    ∀ results, search_project dbPathExists projectPath vectorSearch readFile
      q top_k ≠ .ok results := by
  subst h
  refine ⟨rfl, ?_⟩
  intro results hok
  simp [search_project, searcher_init] at hok

/-- Witness for C9 at a concrete (index-less) project. -/
theorem claim_C9_witness :
    search_project (Q := Unit) (S := Unit) false "proj"
      (fun _ => []) (fun _ => []) () 5 =
      .error (.noIndexFound ("No index found for " ++ "proj" ++
        ". Run code-index " ++ "proj" ++ " first.")) :=
  (claim_C9_no_index_error false "proj" (fun _ => []) (fun _ => []) () 5
    rfl).1

-- ===================================================================
-- C10 : result count is bounded by min(top_k, MAX_TOP_K)
-- ===================================================================

/--
C10: `Searcher.search` returns at most `min top_k MAX_TOP_K` results,
and `MAX_TOP_K = 50`, so never more than 50 results regardless of the
requested `top_k`.
-/
theorem claim_C10_result_count_bounded {Q S : Type}
    (vectorSearch : Q → List (DbRow S)) (readFile : String → Str)
    (q : Q) (top_k : Nat) :
    (searcher_search vectorSearch readFile q top_k).length ≤
      min top_k MAX_TOP_K ∧
    (searcher_search vectorSearch readFile q top_k).length ≤ 50 ∧
    MAX_TOP_K = 50 := by
  have hlen : (searcher_search vectorSearch readFile q top_k).length ≤
      min top_k MAX_TOP_K := by
    unfold searcher_search
    simp only [List.length_map, List.length_take]
    omega
  refine ⟨hlen, ?_, rfl⟩
  have : min top_k MAX_TOP_K ≤ 50 := by
    unfold MAX_TOP_K
    omega
  omega

-- ===================================================================
-- String-primitive lemmas
-- ===================================================================

theorem rstripC_length_le (l : Str) : (rstripC l).length ≤ l.length := by
  unfold rstripC
  simpa using (List.dropWhile_sublist isSpaceC (l := l.reverse)).length_le

theorem lstripC_length_le (l : Str) : (lstripC l).length ≤ l.length :=
  (List.dropWhile_sublist isSpaceC (l := l)).length_le

theorem stripC_length_le (l : Str) : (stripC l).length ≤ l.length :=
  le_trans (rstripC_length_le _) (lstripC_length_le _)

theorem sliceC_length_le (l : Str) (a b : Nat) :
    (sliceC l a b).length ≤ l.length := by
  unfold sliceC
  simp only [List.length_drop, List.length_take]
  omega

theorem joinLines_splitLines (l : Str) : joinLines (splitLines l) = l := by
  simpa [joinLines, splitLines] using
    (List.intercalate_splitOn l '\n' :
      List.intercalate ['\n'] (l.splitOn '\n') = l)

theorem splitLines_ne_nil (l : Str) : splitLines l ≠ [] :=
  List.splitOnP_ne_nil _ l

theorem joinLines_cons_cons (a b : Str) (t : List Str) :
    joinLines (a :: b :: t) = a ++ '\n' :: joinLines (b :: t) := by
  simp [joinLines, List.intercalate, List.intersperse_cons_cons]

theorem joinLines_length (ls : List Str) (h : ls ≠ []) :
    (joinLines ls).length + 1 = (ls.map (fun l => l.length + 1)).sum := by
  induction ls with
  | nil => exact absurd rfl h
  | cons a t ih =>
    cases t with
    | nil => simp [joinLines, List.intercalate]
    | cons b t2 =>
      rw [joinLines_cons_cons]
      have := ih (by simp)
      simp only [List.map_cons, List.sum_cons, List.length_append,
        List.length_cons] at this ⊢
      omega

theorem splitLines_sum (l : Str) :
    ((splitLines l).map (fun x => x.length + 1)).sum = l.length + 1 := by
  have h := joinLines_length (splitLines l) (splitLines_ne_nil l)
  rw [joinLines_splitLines] at h
  omega

/-- The join of a contiguous segment of the lines of `l` is no longer
than `l`. -/
theorem joinLines_segment_length_le (l : Str) (j m : Nat) :
    (joinLines (((splitLines l).drop j).take m)).length ≤ l.length := by
  by_cases hseg : ((splitLines l).drop j).take m = []
  · simp [hseg, joinLines, List.intercalate]
  · have h1 := joinLines_length _ hseg
    have h2 : ((((splitLines l).drop j).take m).map
        (fun x => x.length + 1)).sum ≤
        ((splitLines l).map (fun x => x.length + 1)).sum := by
      have hsub : (((splitLines l).drop j).take m).Sublist (splitLines l) :=
        ((List.take_sublist _ _).trans (List.drop_sublist _ _))
      exact (hsub.map _).sum_le_sum (by intro x hx; exact Nat.zero_le x)
    rw [splitLines_sum] at h2
    omega

theorem countNl_take_mono (l : Str) (a b : Nat) (h : a ≤ b) :
    countNl (l.take a) ≤ countNl (l.take b) := by
  unfold countNl
  have : l.take a = (l.take b).take a := by rw [List.take_take, min_eq_left h]
  rw [this]
  exact (List.take_sublist _ _).count_le _


-- ===================================================================
-- Bounds for finditer match lists
-- ===================================================================

/-- All matches of a finditer list start within `[lo, hi)`, end after
they start, and each match starts no earlier than the previous match's
end. -/
def MatchBounds (lo hi : Nat) : List (Nat × Nat × Str) → Prop
  | [] => True
  | (s, e, _) :: rest => lo ≤ s ∧ s < e ∧ s < hi ∧ MatchBounds e hi rest

theorem matchBounds_mono_lo {lo hi lo2 : Nat} (ms : List (Nat × Nat × Str))
    (h : lo2 ≤ lo) (hb : MatchBounds lo hi ms) : MatchBounds lo2 hi ms := by
  cases ms with
  | nil => trivial
  | cons m rest =>
    obtain ⟨s, e, nm⟩ := m
    obtain ⟨h1, h2, h3, h4⟩ := hb
    exact ⟨le_trans h h1, h2, h3, h4⟩

theorem matchBounds_mem {lo hi : Nat} (ms : List (Nat × Nat × Str))
    (hb : MatchBounds lo hi ms) (s e : Nat) (nm : Str)
    (hm : (s, e, nm) ∈ ms) : lo ≤ s ∧ s < e ∧ s < hi := by
  induction ms generalizing lo with
  | nil => simp at hm
  | cons m rest ih =>
    obtain ⟨s0, e0, nm0⟩ := m
    obtain ⟨h1, h2, h3, h4⟩ := hb
    rcases List.mem_cons.mp hm with heq | htail
    · simp only [Prod.mk.injEq] at heq
      obtain ⟨rfl, rfl, rfl⟩ := heq
      exact ⟨h1, h2, h3⟩
    · have := ih h4 htail
      exact ⟨le_trans (le_trans h1 (le_of_lt h2)) this.1, this.2.1, this.2.2⟩

theorem finditerGo_bounds (matchAt : Str → Option (Nat × Str))
    (Hm : ∀ s r, matchAt s = some r → 1 ≤ r.1)
    (fuel : Nat) (s : Str) (pos : Nat) (atLS : Bool) :
    MatchBounds pos (pos + s.length) (finditerGo matchAt fuel s pos atLS) := by
  induction fuel generalizing s pos atLS with
  | zero => simp [finditerGo, MatchBounds]
  | succ fuel ih =>
    cases s with
    | nil => simp [finditerGo, MatchBounds]
    | cons c rest =>
      have heq1 : pos + 1 + rest.length = pos + (c :: rest).length := by
        simp only [List.length_cons]; omega
      cases atLS with
      | false =>
        rw [finditerGo, if_neg (by simp)]
        exact matchBounds_mono_lo _ (by omega) (heq1 ▸ ih rest (pos + 1) _)
      | true =>
        rw [finditerGo, if_pos rfl]
        cases hm : matchAt (c :: rest) with
        | none =>
          exact matchBounds_mono_lo _ (by omega) (heq1 ▸ ih rest (pos + 1) _)
        | some r =>
          obtain ⟨len, name⟩ := r
          have hlen : 1 ≤ len := Hm _ _ hm
          refine ⟨le_refl pos, by omega,
            by simp only [List.length_cons]; omega, ?_⟩
          by_cases hd : len - 1 ≤ rest.length
          · have hdl : (rest.drop (len - 1)).length = rest.length - (len - 1) :=
              List.length_drop _ _
            have heq : pos + len + (List.drop (len - 1) rest).length =
                pos + (c :: rest).length := by
              simp only [hdl, List.length_cons]; omega
            exact heq ▸ ih (rest.drop (len - 1)) (pos + len) _
          · have hnil : rest.drop (len - 1) = [] :=
              List.drop_eq_nil_of_le (by omega)
            rw [hnil]
            cases fuel <;> simp [finditerGo, MatchBounds]

theorem finditer_bounds (matchAt : Str → Option (Nat × Str))
    (Hm : ∀ s r, matchAt s = some r → 1 ≤ r.1) (content : Str) :
    MatchBounds 0 content.length (finditer matchAt content) := by
  have h := finditerGo_bounds matchAt Hm content.length content 0 true
  simpa [finditer] using h

-- Each modelled matcher returns a positive match length.

theorem matchClassAt_pos (s : Str) (r : Nat × Str)
    (h : matchClassAt s = some r) : 1 ≤ r.1 := by
  unfold matchClassAt at h
  simp only [] at h
  repeat' split at h
  all_goals first
    | exact Option.noConfusion h
    | (injection h with h2; subst h2; simp; try omega)

theorem matchDefAt_pos (s : Str) (r : Nat × Str)
    (h : matchDefAt s = some r) : 1 ≤ r.1 := by
  unfold matchDefAt at h
  simp only [] at h
  repeat' split at h
  all_goals first
    | exact Option.noConfusion h
    | (injection h with h2; subst h2; simp; try omega)

theorem matchMethodAt_pos (s : Str) (r : Nat × Str)
    (h : matchMethodAt s = some r) : 1 ≤ r.1 := by
  unfold matchMethodAt at h
  simp only [] at h
  repeat' split at h
  all_goals first
    | exact Option.noConfusion h
    | (injection h with h2; subst h2; simp; try omega)

theorem matchJsFunc1_pos (s : Str) (r : Nat × Str)
    (h : matchJsFunc1 s = some r) : 1 ≤ r.1 := by
  unfold matchJsFunc1 at h
  simp only [] at h
  repeat' split at h
  all_goals first
    | exact Option.noConfusion h
    | (injection h with h2; subst h2; simp; try omega)

theorem matchJsFunc2_pos (s : Str) (r : Nat × Str)
    (h : matchJsFunc2 s = some r) : 1 ≤ r.1 := by
  unfold matchJsFunc2 at h
  simp only [] at h
  repeat' split at h
  all_goals first
    | exact Option.noConfusion h
    | (injection h with h2; subst h2; simp; try omega)

theorem matchJsFunc3_pos (s : Str) (r : Nat × Str)
    (h : matchJsFunc3 s = some r) : 1 ≤ r.1 := by
  unfold matchJsFunc3 at h
  simp only [] at h
  repeat' split at h
  all_goals first
    | exact Option.noConfusion h
    | (injection h with h2; subst h2; simp; try omega)

theorem matchJsClass_pos (s : Str) (r : Nat × Str)
    (h : matchJsClass s = some r) : 1 ≤ r.1 := by
  unfold matchJsClass at h
  simp only [] at h
  repeat' split at h
  all_goals first
    | exact Option.noConfusion h
    | (injection h with h2; subst h2; simp; try omega)

-- ===================================================================
-- End positions never precede their start positions
-- ===================================================================

theorem find_python_function_end_ge (content : Str) (startPos : Nat)
    (h : startPos ≤ content.length) :
    startPos ≤ find_python_function_end content startPos := by
  unfold find_python_function_end
  simp only []
  split
  · exact le_refl _
  · split
    · omega
    · exact h

theorem braceGo_ge (l : Str) (pos count : Nat) :
    ∀ p, braceGo l pos count = some p → pos ≤ p := by
  induction l generalizing pos count with
  | nil => intro p h; simp [braceGo] at h
  | cons c rest ih =>
    intro p h
    unfold braceGo at h
    simp only [] at h
    repeat' split at h
    all_goals first
      | (injection h with h2; omega)
      | (have h9 := ih (pos + 1) _ _ h; omega)

theorem find_matching_brace_ge (content : Str) (startPos : Nat)
    (h : startPos ≤ content.length) :
    startPos ≤ find_matching_brace content startPos := by
  unfold find_matching_brace
  split
  · omega
  · rename_i openPos heq
    have hop : startPos ≤ openPos := by
      unfold findBraceFrom at heq
      split at heq
      · injection heq with h2; omega
      · exact absurd heq (by simp)
    split
    · rename_i p hg
      have := braceGo_ge _ _ _ _ hg
      omega
    · exact h

theorem rubyEndGo_ge (l : List Str) (depth pos : Nat) :
    ∀ p, rubyEndGo depth l pos = some p → pos ≤ p := by
  induction l generalizing depth pos with
  | nil => intro p h; simp [rubyEndGo] at h
  | cons line rest ih =>
    intro p h
    unfold rubyEndGo at h
    simp only [] at h
    repeat' split at h
    all_goals first
      | (injection h with h2; omega)
      | (have h9 := ih _ _ _ h; omega)

theorem find_ruby_block_end_ge (content : Str) (startPos : Nat)
    (h : startPos ≤ content.length) :
    startPos ≤ find_ruby_block_end content startPos := by
  unfold find_ruby_block_end
  split
  · exact h
  · split
    · rename_i p hg
      have := rubyEndGo_ge _ _ _ _ hg
      omega
    · exact h

-- ===================================================================
-- Per-chunk invariants (used by several claims)
-- ===================================================================

/-- The invariant proved for every produced chunk: its content is no
longer than the file, its line range satisfies
`1 ≤ start_line ≤ end_line`, and a simple-strategy ("block") chunk
re-extracts exactly from its line numbers. -/
def ChunkOk (content : Str) (c : CodeChunk) : Prop :=
  c.content.length ≤ content.length ∧
  1 ≤ c.start_line ∧ c.start_line ≤ c.end_line ∧
  (c.chunk_type = "block" →
    c.content = readFreshLines content c.start_line c.end_line)

theorem simpleLoopGo_mem (lines : List Str) (fp : String) (lpc step : Nat)
    (fuel i : Nat) (c : CodeChunk)
    (h : c ∈ simpleLoopGo lines fp lpc step fuel i) :
    ∃ j, i ≤ j ∧ j < lines.length ∧
      c = ⟨joinLines ((lines.drop j).take (min (j + lpc) lines.length - j)),
        fp, j + 1, min (j + lpc) lines.length, "block", none⟩ := by
  induction fuel generalizing i with
  | zero => simp [simpleLoopGo] at h
  | succ fuel ih =>
    rw [simpleLoopGo] at h
    split at h
    · rename_i hlt
      simp only [] at h
      split at h
      · rcases List.mem_cons.mp h with heq | htail
        · exact ⟨i, le_refl i, hlt, heq⟩
        · obtain ⟨j, hj1, hj2, hj3⟩ := ih _ htail
          exact ⟨j, by omega, hj2, hj3⟩
      · obtain ⟨j, hj1, hj2, hj3⟩ := ih _ h
        exact ⟨j, by omega, hj2, hj3⟩
    · simp at h

theorem readFreshLines_eq (content : Str) (j e : Nat) :
    readFreshLines content (j + 1) e =
      joinLines (((splitLines content).drop j).take (e - j)) := by
  unfold readFreshLines read_fresh_content
  simp

theorem chunk_simple_chunkOk (content : Str) (fp : String) (c : CodeChunk)
    (h : c ∈ chunk_simple content fp) : ChunkOk content c := by
  unfold chunk_simple at h
  obtain ⟨j, hj1, hj2, hj3⟩ := simpleLoopGo_mem _ _ _ _ _ _ c h
  subst hj3
  unfold ChunkOk
  refine ⟨joinLines_segment_length_le _ _ _, by simp, ?_, ?_⟩
  · simp only []
    have h10 : 10 ≤ linesPerChunk content.length (splitLines content).length :=
      le_max_right _ _
    omega
  · intro _
    simp only []
    rw [readFreshLines_eq]

theorem pyMethodGo_mem (cc : Str) (fp : String) (csl : Nat) (cn : Str)
    (ctx : Option Str) (ms : List (Nat × Nat × Str)) (lo : Nat)
    (hb : MatchBounds lo cc.length ms) (c : CodeChunk)
    (h : c ∈ pyMethodGo cc fp csl cn ctx ms) :
    ∃ s, s < cc.length ∧
      c = ⟨rstripC (sliceC cc s (find_python_function_end cc s)), fp,
        csl + countNl (cc.take s),
        csl + countNl (cc.take (find_python_function_end cc s)), "method",
        some (methodContext cn ctx)⟩ := by
  induction ms generalizing lo with
  | nil => simp [pyMethodGo] at h
  | cons m rest ih =>
    obtain ⟨s0, e0, nm0⟩ := m
    obtain ⟨hb1, hb2, hb3, hb4⟩ := hb
    rw [pyMethodGo] at h
    try simp only [] at h
    rcases List.mem_cons.mp h with heq | htail
    · exact ⟨s0, hb3, heq⟩
    · exact ih _ hb4 htail

theorem extract_python_methods_mem (cc : Str) (fp : String) (csl : Nat)
    (cn : Str) (ctx : Option Str) (c : CodeChunk)
    (h : c ∈ extract_python_methods cc fp csl cn ctx) :
    ∃ s, s < cc.length ∧
      c = ⟨rstripC (sliceC cc s (find_python_function_end cc s)), fp,
        csl + countNl (cc.take s),
        csl + countNl (cc.take (find_python_function_end cc s)), "method",
        some (methodContext cn ctx)⟩ :=
  pyMethodGo_mem cc fp csl cn ctx _ 0
    (finditer_bounds matchMethodAt matchMethodAt_pos cc) c h

theorem pyClassGo_mem (content : Str) (fp : String) (ctx : Option Str)
    (ms : List (Nat × Nat × Str)) (lo : Nat)
    (hb : MatchBounds lo content.length ms) (c : CodeChunk)
    (h : c ∈ pyClassGo content fp ctx ms) :
    ∃ s endPos name, s ≤ endPos ∧ s < content.length ∧
      endPos ≤ content.length ∧
      (c = ⟨rstripC (sliceC content s endPos), fp,
          countNl (content.take s) + 1, countNl (content.take endPos) + 1,
          "class", ctx⟩ ∨
        c ∈ extract_python_methods (rstripC (sliceC content s endPos)) fp
          (countNl (content.take s) + 1) name ctx) := by
  induction ms generalizing lo with
  | nil => simp [pyClassGo] at h
  | cons m rest ih =>
    obtain ⟨s0, e0, nm0⟩ := m
    obtain ⟨hb1, hb2, hb3, hb4⟩ := hb
    rw [pyClassGo.eq_def] at h
    simp only [] at h
    rcases List.mem_append.mp h with hhead | htail
    · cases rest with
      | nil =>
        simp only [] at hhead
        split at hhead
        · exact ⟨s0, content.length, nm0, le_of_lt hb3, hb3, le_refl _,
            Or.inr hhead⟩
        · exact ⟨s0, content.length, nm0, le_of_lt hb3, hb3, le_refl _,
            Or.inl (List.mem_singleton.mp hhead)⟩
      | cons m2 rest2 =>
        obtain ⟨s2, e2, nm2⟩ := m2
        obtain ⟨hc1, hc2, hc3, _⟩ := hb4
        simp only [] at hhead
        split at hhead
        · exact ⟨s0, s2, nm0, by omega, hb3, le_of_lt hc3, Or.inr hhead⟩
        · exact ⟨s0, s2, nm0, by omega, hb3, le_of_lt hc3,
            Or.inl (List.mem_singleton.mp hhead)⟩
    · exact ih _ hb4 htail

theorem pyFnGo_mem (content : Str) (fp : String) (ctx : Option Str)
    (ms : List (Nat × Nat × Str)) (lo : Nat)
    (hb : MatchBounds lo content.length ms) (c : CodeChunk)
    (h : c ∈ pyFnGo content fp ctx ms) :
    ∃ s, s < content.length ∧
      c = ⟨rstripC (sliceC content s (find_python_function_end content s)),
        fp, countNl (content.take s) + 1,
        countNl (content.take (find_python_function_end content s)) + 1,
        "function", ctx⟩ ∧
      c.content.length ≤ CHUNK_SIZE * 2 := by
  induction ms generalizing lo with
  | nil => simp [pyFnGo] at h
  | cons m rest ih =>
    obtain ⟨s0, e0, nm0⟩ := m
    obtain ⟨hb1, hb2, hb3, hb4⟩ := hb
    rw [pyFnGo.eq_def] at h
    simp only [] at h
    rcases List.mem_append.mp h with hhead | htail
    · split at hhead
      · simp at hhead
      · split at hhead
        · rename_i hsmall
          rcases List.mem_singleton.mp hhead with heq
          refine ⟨s0, hb3, heq, ?_⟩
          rw [heq]
          exact hsmall
        · simp at hhead
    · exact ih _ hb4 htail

theorem jsClassGo_mem (content : Str) (fp : String) (ctx : Option Str)
    (ms : List (Nat × Nat × Str)) (lo : Nat)
    (hb : MatchBounds lo content.length ms) (c : CodeChunk)
    (h : c ∈ jsClassGo content fp ctx ms) :
    ∃ s, s < content.length ∧
      c = ⟨sliceC content s (find_matching_brace content s), fp,
        countNl (content.take s) + 1,
        countNl (content.take (find_matching_brace content s)) + 1,
        "class", ctx⟩ := by
  induction ms generalizing lo with
  | nil => simp [jsClassGo] at h
  | cons m rest ih =>
    obtain ⟨s0, e0, nm0⟩ := m
    obtain ⟨hb1, hb2, hb3, hb4⟩ := hb
    rw [jsClassGo] at h
    try simp only [] at h
    rcases List.mem_cons.mp h with heq | htail
    · exact ⟨s0, hb3, heq⟩
    · exact ih _ hb4 htail

theorem jsFnGo_mem (content : Str) (fp : String) (ctx : Option Str)
    (ms : List (Nat × Nat × Str)) (lo : Nat)
    (hb : MatchBounds lo content.length ms) (c : CodeChunk)
    (h : c ∈ jsFnGo content fp ctx ms) :
    ∃ s, s < content.length ∧
      c = ⟨sliceC content s (find_matching_brace content s), fp,
        countNl (content.take s) + 1,
        countNl (content.take (find_matching_brace content s)) + 1,
        "function", ctx⟩ := by
  induction ms generalizing lo with
  | nil => simp [jsFnGo] at h
  | cons m rest ih =>
    obtain ⟨s0, e0, nm0⟩ := m
    obtain ⟨hb1, hb2, hb3, hb4⟩ := hb
    rw [jsFnGo.eq_def] at h
    simp only [] at h
    rcases List.mem_append.mp h with hhead | htail
    · split at hhead
      · exact ⟨s0, hb3, List.mem_singleton.mp hhead⟩
      · simp at hhead
    · exact ih _ hb4 htail

theorem rubyClassGo_mem (content : Str) (fp : String)
    (ms : List (Nat × Nat × Str)) (lo : Nat)
    (hb : MatchBounds lo content.length ms) (c : CodeChunk)
    (h : c ∈ rubyClassGo content fp ms) :
    ∃ s, s < content.length ∧
      c = ⟨sliceC content s (find_ruby_block_end content s), fp,
        countNl (content.take s) + 1,
        countNl (content.take (find_ruby_block_end content s)) + 1,
        "class", none⟩ := by
  induction ms generalizing lo with
  | nil => simp [rubyClassGo] at h
  | cons m rest ih =>
    obtain ⟨s0, e0, nm0⟩ := m
    obtain ⟨hb1, hb2, hb3, hb4⟩ := hb
    rw [rubyClassGo] at h
    try simp only [] at h
    rcases List.mem_cons.mp h with heq | htail
    · exact ⟨s0, hb3, heq⟩
    · exact ih _ hb4 htail

theorem rstrip_slice_le (l : Str) (a b : Nat) :
    (rstripC (sliceC l a b)).length ≤ l.length :=
  le_trans (rstripC_length_le _) (sliceC_length_le _ _ _)

theorem chunk_python_chunkOk (content : Str) (fp : String) (c : CodeChunk)
    (h : c ∈ chunk_python content fp) : ChunkOk content c := by
  unfold chunk_python at h
  simp only [] at h
  split at h
  · exact chunk_simple_chunkOk content fp c h
  · rcases List.mem_append.mp h with hcls | hfn
    · obtain ⟨s, ep, nm, hse, hslen, heplen, hcase⟩ :=
        pyClassGo_mem content fp _ _ 0
          (finditer_bounds matchClassAt matchClassAt_pos content) c hcls
      rcases hcase with heq | hm
      · subst heq
        refine ⟨rstrip_slice_le _ _ _, by simp, ?_, by intro hbt; simp at hbt⟩
        have := countNl_take_mono content s ep hse
        simp only []
        omega
      · obtain ⟨s1, hs1len, heq⟩ :=
          extract_python_methods_mem _ fp _ nm _ c hm
        subst heq
        have hcc : (rstripC (sliceC content s ep)).length ≤ content.length :=
          rstrip_slice_le _ _ _
        refine ⟨?_, by simp; omega, ?_, by intro hbt; simp at hbt⟩
        · exact le_trans (rstrip_slice_le _ _ _) hcc
        · have hge := find_python_function_end_ge (rstripC (sliceC content s ep))
            s1 (le_of_lt hs1len)
          have := countNl_take_mono (rstripC (sliceC content s ep)) s1 _ hge
          simp only []
          omega
    · obtain ⟨s, hslen, heq, _⟩ :=
        pyFnGo_mem content fp _ _ 0
          (finditer_bounds matchDefAt matchDefAt_pos content) c hfn
      subst heq
      refine ⟨rstrip_slice_le _ _ _, by simp, ?_, by intro hbt; simp at hbt⟩
      have hge := find_python_function_end_ge content s (le_of_lt hslen)
      have := countNl_take_mono content s _ hge
      simp only []
      omega

theorem chunk_javascript_chunkOk (content : Str) (fp : String)
    (c : CodeChunk) (h : c ∈ chunk_javascript content fp) :
    ChunkOk content c := by
  unfold chunk_javascript at h
  simp only [] at h
  split at h
  · exact chunk_simple_chunkOk content fp c h
  · have handle : ∀ s : Nat, s < content.length → ∀ ty : String,
        ty = "class" ∨ ty = "function" →
        ∀ ctx2 : Option Str,
        ChunkOk content ⟨sliceC content s (find_matching_brace content s),
          fp, countNl (content.take s) + 1,
          countNl (content.take (find_matching_brace content s)) + 1,
          ty, ctx2⟩ := by
      intro s hs ty hty ctx2
      have hge := find_matching_brace_ge content s (le_of_lt hs)
      have := countNl_take_mono content s _ hge
      refine ⟨sliceC_length_le _ _ _, by simp, by simp only []; omega, ?_⟩
      intro hbt
      simp only [] at hbt
      rcases hty with rfl | rfl <;> simp at hbt
    rcases List.mem_append.mp h with h1 | h3
    · rcases List.mem_append.mp h1 with h1a | h2
      · rcases List.mem_append.mp h1a with hcls | hfn1
        · obtain ⟨s, hs, heq⟩ := jsClassGo_mem content fp _ _ 0
            (finditer_bounds matchJsClass matchJsClass_pos content) c hcls
          subst heq
          exact handle s hs _ (Or.inl rfl) _
        · obtain ⟨s, hs, heq⟩ := jsFnGo_mem content fp _ _ 0
            (finditer_bounds matchJsFunc1 matchJsFunc1_pos content) c hfn1
          subst heq
          exact handle s hs _ (Or.inr rfl) _
      · obtain ⟨s, hs, heq⟩ := jsFnGo_mem content fp _ _ 0
          (finditer_bounds matchJsFunc2 matchJsFunc2_pos content) c h2
        subst heq
        exact handle s hs _ (Or.inr rfl) _
    · obtain ⟨s, hs, heq⟩ := jsFnGo_mem content fp _ _ 0
        (finditer_bounds matchJsFunc3 matchJsFunc3_pos content) c h3
      subst heq
      exact handle s hs _ (Or.inr rfl) _

theorem chunk_ruby_chunkOk (content : Str) (fp : String) (c : CodeChunk)
    (h : c ∈ chunk_ruby content fp) : ChunkOk content c := by
  unfold chunk_ruby at h
  simp only [] at h
  split at h
  · exact chunk_simple_chunkOk content fp c h
  · obtain ⟨s, hs, heq⟩ := rubyClassGo_mem content fp _ 0
      (finditer_bounds matchClassAt matchClassAt_pos content) c h
    subst heq
    have hge := find_ruby_block_end_ge content s (le_of_lt hs)
    have := countNl_take_mono content s _ hge
    refine ⟨sliceC_length_le _ _ _, by simp, by simp only []; omega, ?_⟩
    intro hbt
    simp at hbt

theorem chunk_c_style_chunkOk (content : Str) (fp : String) (c : CodeChunk)
    (h : c ∈ chunk_c_style content fp) : ChunkOk content c :=
  chunk_simple_chunkOk content fp c h

theorem chunk_file_strategy_chunkOk (ext : String) (content : Str)
    (fp : String) (c : CodeChunk) (h : c ∈ chunk_file ext content fp) :
    ChunkOk content c ∧ MIN_CHUNK_SIZE ≤ (stripC c.content).length := by
  unfold chunk_file at h
  split at h
  · simp at h
  · simp only [] at h
    rw [List.mem_filter] at h
    obtain ⟨hmem, hflt⟩ := h
    refine ⟨?_, by simpa using hflt⟩
    split at hmem
    · exact chunk_python_chunkOk content fp c hmem
    · split at hmem
      · exact chunk_javascript_chunkOk content fp c hmem
      · split at hmem
        · exact chunk_ruby_chunkOk content fp c hmem
        · split at hmem
          · exact chunk_c_style_chunkOk content fp c hmem
          · exact chunk_simple_chunkOk content fp c hmem

-- ===================================================================
-- C8 counterexample: an oversized method inside an oversized class is
-- emitted, not skipped.  The 3100-character run is kept as an
-- unevaluated `List.replicate` and handled symbolically.
-- ===================================================================

theorem fgo_rep (matchAt : Str → Option (Nat × Str)) (fuel n pos : Nat) :
    finditerGo matchAt fuel (List.replicate n 'x') pos false = [] := by
  induction fuel generalizing n pos with
  | zero => simp [finditerGo]
  | succ fuel ih =>
    cases n with
    | zero => simp [finditerGo]
    | succ n =>
      rw [List.replicate_succ, finditerGo, if_neg (by simp)]
      simpa using ih n (pos + 1)

theorem splitLines_append_nl (l rest : Str) (h : ∀ x ∈ l, ¬x = '\n') :
    splitLines (l ++ '\n' :: rest) = l :: splitLines rest := by
  unfold splitLines List.splitOn
  exact List.splitOnP_first _ l (by intro x hx; simpa using h x hx) '\n'
    (by simp) rest

theorem splitLines_no_nl (l : Str) (h : ∀ x ∈ l, ¬x = '\n') :
    splitLines l = [l] := by
  unfold splitLines List.splitOn
  exact List.splitOnP_eq_single _ _ (by intro x hx; simpa using h x hx)

theorem no_nl_append_rep (l : Str) (n : Nat) (hl : ∀ x ∈ l, ¬x = '\n') :
    ∀ x ∈ l ++ List.replicate n 'x', ¬x = '\n' := by
  intro x hx
  rcases List.mem_append.mp hx with h1 | h2
  · exact hl x h1
  · rw [List.eq_of_mem_replicate h2]
    simp

theorem rstripC_append_rep (l : Str) (n : Nat) :
    rstripC (l ++ List.replicate (n + 1) 'x') =
      l ++ List.replicate (n + 1) 'x' := by
  unfold rstripC
  have h1 : (l ++ List.replicate (n + 1) 'x').reverse =
      'x' :: (List.replicate n 'x' ++ l.reverse) := by
    rw [List.reverse_append, List.reverse_replicate, List.replicate_succ,
      List.cons_append]
  rw [h1, List.dropWhile_cons, if_neg (by decide), ← h1,
    List.reverse_reverse]

def cex8content : Str :=
  "class A:\n    def m(self):\n        y = ".data ++ List.replicate 3100 'x'

theorem cex8_cons : cex8content =
    'c' :: 'l' :: 'a' :: 's' :: 's' :: ' ' :: 'A' :: ':' :: '\n' ::
    ' ' :: ' ' :: ' ' :: ' ' :: 'd' :: 'e' :: 'f' :: ' ' :: 'm' :: '(' ::
    's' :: 'e' :: 'l' :: 'f' :: ')' :: ':' :: '\n' ::
    ' ' :: ' ' :: ' ' :: ' ' :: ' ' :: ' ' :: ' ' :: ' ' :: 'y' :: ' ' ::
    '=' :: ' ' :: List.replicate 3100 'x' := rfl

theorem cex8_len : cex8content.length = 3138 := by
  rw [cex8_cons]
  simp only [List.length_cons, List.length_replicate]

set_option maxHeartbeats 4000000 in
theorem cex8_scan_def : finditer matchDefAt cex8content = [] := by
  rw [finditer, cex8_len, cex8_cons]
  simp +decide [finditerGo, matchDefAt, startsWithC, leadWs, leadWord,
    isSpaceC, isWordC, List.isPrefixOf, List.takeWhile, fgo_rep,
    -List.replicate_succ]

set_option maxHeartbeats 4000000 in
theorem cex8_scan_class :
    finditer matchClassAt cex8content = [(0, 7, ['A'])] := by
  rw [finditer, cex8_len, cex8_cons]
  simp +decide [finditerGo, matchClassAt, startsWithC, leadWs, leadWord,
    isSpaceC, isWordC, List.isPrefixOf, List.takeWhile, fgo_rep,
    -List.replicate_succ]

set_option maxHeartbeats 4000000 in
theorem cex8_scan_method :
    finditer matchMethodAt cex8content = [(9, 18, ['m'])] := by
  rw [finditer, cex8_len, cex8_cons]
  simp +decide [finditerGo, matchMethodAt, startsWithC, leadWs, leadWord,
    isSpaceC, isWordC, List.isPrefixOf, List.takeWhile, fgo_rep,
    -List.replicate_succ]

theorem cex8_take_all : cex8content.take 3138 = cex8content := by
  rw [← cex8_len, List.take_length]

theorem cex8_slice0 : sliceC cex8content 0 cex8content.length = cex8content := by
  unfold sliceC
  rw [List.take_length, List.drop_zero]

theorem cex8_as_append : cex8content =
    "class A:\n    def m(self):\n        y = ".data ++
      List.replicate (3099 + 1) 'x' := rfl

theorem cex8_rstrip : rstripC cex8content = cex8content := by
  rw [cex8_as_append, rstripC_append_rep]

theorem cex8_lstrip : lstripC cex8content = cex8content := by
  rw [cex8_cons]
  unfold lstripC
  rw [List.dropWhile_cons, if_neg (by decide)]

theorem cex8_strip_ne : (stripC cex8content).isEmpty = false := by
  unfold stripC
  rw [cex8_lstrip, cex8_rstrip, cex8_cons]
  rfl

theorem cex8_countNl : countNl cex8content = 2 := by
  rw [cex8_as_append]
  unfold countNl
  rw [List.count_append, List.count_replicate]
  decide

theorem cex8_countNl_take9 : countNl (cex8content.take 9) = 1 := by
  rw [cex8_cons]
  decide

theorem cex8_drop9 : cex8content.drop 9 =
    "    def m(self):\n        y = ".data ++ List.replicate 3100 'x' := by
  rw [cex8_cons]
  rfl

theorem cex8_split9 : splitLines (cex8content.drop 9) =
    ["    def m(self):".data,
      "        y = ".data ++ List.replicate 3100 'x'] := by
  have h2 : cex8content.drop 9 =
      "    def m(self):".data ++ '\n' ::
        ("        y = ".data ++ List.replicate 3100 'x') := by
    rw [cex8_drop9]; rfl
  rw [h2, splitLines_append_nl _ _ (by decide),
    splitLines_no_nl _ (no_nl_append_rep _ _ (by decide))]

theorem cex8_strip_line3 :
    (stripC ("        y = ".data ++ List.replicate 3100 'x')).isEmpty
      = false := by
  unfold stripC
  have h1 : lstripC ("        y = ".data ++ List.replicate 3100 'x') =
      "y = ".data ++ List.replicate 3100 'x' := rfl
  rw [h1, show ("y = ".data ++ List.replicate 3100 'x') =
    ("y = ".data ++ List.replicate (3099 + 1) 'x') from rfl,
    rstripC_append_rep]
  rfl

theorem cex8_fpfe9 : find_python_function_end cex8content 9 = 3138 := by
  unfold find_python_function_end
  rw [cex8_split9]
  simp only []
  rw [findFnEndGo, if_pos cex8_strip_line3,
    if_neg (by rw [show leadWs ("        y = ".data ++
      List.replicate 3100 'x') = 8 from rfl]; decide)]
  rw [findFnEndGo, cex8_len]

theorem cex8_mc_content : rstripC (sliceC cex8content 9 3138) =
    "    def m(self):\n        y = ".data ++ List.replicate 3100 'x' := by
  unfold sliceC
  rw [cex8_take_all, cex8_drop9,
    show ("    def m(self):\n        y = ".data ++
      List.replicate 3100 'x') = ("    def m(self):\n        y = ".data ++
      List.replicate (3099 + 1) 'x') from rfl, rstripC_append_rep]

theorem cex8_mc_len :
    ("    def m(self):\n        y = ".data ++
      (List.replicate 3100 'x' : Str)).length = 3129 := by
  rw [List.length_append, List.length_replicate]
  decide


set_option maxHeartbeats 1000000 in
theorem cex8_chunk_python : chunk_python cex8content "f.py" =
    [⟨"    def m(self):\n        y = ".data ++ List.replicate 3100 'x',
      "f.py", 2, 3, "method", some (methodContext ['A'] none)⟩] := by
  have himp : pyImportContext cex8content = none := by
    unfold pyImportContext
    have hl : splitLines cex8content =
        ["class A:".data,
          "    def m(self):".data,
          "        y = ".data ++ List.replicate 3100 'x'] := by
      rw [show cex8content = "class A:".data ++ '\n' ::
          ("    def m(self):".data ++ '\n' ::
            ("        y = ".data ++ List.replicate 3100 'x')) from rfl,
        splitLines_append_nl _ _ (by decide),
        splitLines_append_nl _ _ (by decide),
        splitLines_no_nl _ (no_nl_append_rep _ _ (by decide))]
    rw [hl]
    rfl
  unfold chunk_python
  rw [himp, cex8_scan_class, cex8_scan_def]
  simp only []
  rw [pyClassGo.eq_def]
  simp only []
  rw [cex8_slice0, cex8_rstrip]
  rw [if_pos (show CHUNK_SIZE * 2 < cex8content.length by rw [cex8_len]; decide)]
  unfold extract_python_methods
  rw [cex8_scan_method]
  rw [pyMethodGo.eq_def]
  simp only []
  rw [cex8_fpfe9, cex8_mc_content]
  simp only [pyMethodGo, pyClassGo, pyFnGo, List.append_nil, List.take_zero,
    List.isEmpty_cons]
  rw [cex8_countNl_take9, cex8_take_all, cex8_countNl]
  rw [if_neg (by decide)]
  rfl

theorem cex8_strip_mc :
    stripC ("    def m(self):\n        y = ".data ++
        List.replicate 3100 'x') =
      "def m(self):\n        y = ".data ++ List.replicate 3100 'x' := by
  unfold stripC
  have h1 : lstripC ("    def m(self):\n        y = ".data ++
      List.replicate 3100 'x') =
      "def m(self):\n        y = ".data ++ List.replicate 3100 'x' := rfl
  rw [h1, show ("def m(self):\n        y = ".data ++
      List.replicate 3100 'x' : Str) = ("def m(self):\n        y = ".data ++
      List.replicate (3099 + 1) 'x') from rfl, rstripC_append_rep]

theorem cex8_chunk_file : chunk_file ".py" cex8content "f.py" =
    [⟨"    def m(self):\n        y = ".data ++ List.replicate 3100 'x',
      "f.py", 2, 3, "method", some (methodContext ['A'] none)⟩] := by
  unfold chunk_file
  rw [if_neg (by rw [cex8_strip_ne]; decide)]
  simp only []
  rw [if_pos trivial, cex8_chunk_python]
  rw [List.filter_cons, if_pos (by
    rw [cex8_strip_mc]
    simp only [List.length_append, List.length_replicate]
    decide), List.filter_nil]

/--
C8 counterexample: for the concrete Python file
`"class A:\n    def m(self):\n        y = " ++ 3100 * "x"`, the class
body (3138 characters) exceeds `CHUNK_SIZE * 2`, so it is split into
methods; the single method spans 3129 characters, which also exceeds
`CHUNK_SIZE * 2 = 3000`, yet the chunker emits it as a "method" chunk
instead of omitting it — refuting the claim that the size skip applies
to methods extracted from an oversized class.
-/
theorem claim_C8_counterexample :
    (chunk_file ".py" cex8content "f.py").map
        (fun c => (c.chunk_type, c.content.length)) = [("method", 3129)] ∧
    CHUNK_SIZE * 2 < 3129 := by
  constructor
  · rw [cex8_chunk_file]
    simp only [List.map_cons, List.map_nil]
    rw [show ("    def m(self):\n        y = ".data ++
      (List.replicate 3100 'x' : Str)).length = 3129 from cex8_mc_len]
  · decide

/--
C8 (amended): under the structural Python chunking strategy, a
top-level function whose span exceeds `CHUNK_SIZE * 2` is omitted
(every emitted "function" chunk is within the threshold), but methods
extracted from an oversized class are emitted regardless of their size
(`_extract_python_methods` applies no size check; see the
counterexample).
-/
theorem claim_C8_amended_only_functions_skipped (content : Str)
    (fp : String) (c : CodeChunk) (h : c ∈ chunk_python content fp)
    (hf : c.chunk_type = "function") :
    c.content.length ≤ CHUNK_SIZE * 2 := by
  unfold chunk_python at h
  simp only [] at h
  split at h
  · unfold chunk_simple at h
    obtain ⟨j, _, _, heq⟩ := simpleLoopGo_mem _ _ _ _ _ _ c h
    subst heq
    simp at hf
  · rcases List.mem_append.mp h with hcls | hfn
    · obtain ⟨s, ep, nm, _, _, _, hcase⟩ :=
        pyClassGo_mem content fp _ _ 0
          (finditer_bounds matchClassAt matchClassAt_pos content) c hcls
      rcases hcase with heq | hm
      · subst heq; simp at hf
      · obtain ⟨s1, _, heq⟩ :=
          extract_python_methods_mem _ fp _ nm _ c hm
        subst heq; simp at hf
    · obtain ⟨s, _, _, hsize⟩ :=
        pyFnGo_mem content fp _ _ 0
          (finditer_bounds matchDefAt matchDefAt_pos content) c hfn
      exact hsize

/-- Witness for the amended C8: the concrete function chunk produced
for a small file is within the threshold. -/
theorem claim_C8_amended_witness :
    ("def f():\n    pass".data : Str).length ≤ CHUNK_SIZE * 2 := by
  have h := claim_C8_amended_only_functions_skipped
    "def f():\n    pass\nlast = 1".data "f.py"
    ⟨"def f():\n    pass".data, "f.py", 1, 3, "function", none⟩
    (by decide) rfl
  simpa using h

-- ===================================================================
-- C7 : line-range invariant and re-extraction
-- ===================================================================

/-- Whitespace-insensitive normalisation: drop every whitespace
character (the most permissive reading of "whitespace-normalized" —
if even these disagree, any whitespace normalisation disagrees). -/
def wsNormalize (l : Str) : Str := l.filter (fun c => !(isSpaceC c))

/--
C7 counterexample: for `"def f():\n    pass\nlast = 1"` the Python
chunker produces a single function chunk whose recorded range is lines
1-3, although the chunk content is only lines 1-2; re-extracting lines
1-3 picks up the unrelated `last = 1` line, so the stored content and
the re-extraction differ even after removing all whitespace.
-/
theorem claim_C7_counterexample :
    (chunk_python "def f():\n    pass\nlast = 1".data "f.py").map
        (fun c => (c.content, c.start_line, c.end_line, c.chunk_type)) =
      [("def f():\n    pass".data, 1, 3, "function")] ∧
    wsNormalize "def f():\n    pass".data ≠
      wsNormalize
        (readFreshLines "def f():\n    pass\nlast = 1".data 1 3) := by
  constructor
  · decide
  · decide

/--
C7 (amended): every chunk produced by any chunking strategy (and by
`chunk_file`) satisfies `1 ≤ start_line ≤ end_line`, and every
simple-strategy ("block") chunk re-extracts exactly from the source at
its recorded line numbers; structural chunks may record an `end_line`
extending to the next construct, so for them only the line-range
invariant holds (see the counterexample).
-/
theorem claim_C7_amended_line_invariant (content : Str) (fp : String)
    (c : CodeChunk)
    (h : c ∈ chunk_python content fp ∨ c ∈ chunk_javascript content fp ∨
      c ∈ chunk_ruby content fp ∨ c ∈ chunk_c_style content fp ∨
      c ∈ chunk_simple content fp ∨ ∃ ext, c ∈ chunk_file ext content fp) :
    1 ≤ c.start_line ∧ c.start_line ≤ c.end_line ∧
    (c.chunk_type = "block" →
      c.content = readFreshLines content c.start_line c.end_line) := by
  have hok : ChunkOk content c := by
    rcases h with h | h | h | h | h | ⟨ext, h⟩
    · exact chunk_python_chunkOk _ _ _ h
    · exact chunk_javascript_chunkOk _ _ _ h
    · exact chunk_ruby_chunkOk _ _ _ h
    · exact chunk_c_style_chunkOk _ _ _ h
    · exact chunk_simple_chunkOk _ _ _ h
    · exact (chunk_file_strategy_chunkOk _ _ _ _ h).1
  exact ⟨hok.2.1, hok.2.2.1, hok.2.2.2⟩

/-- Witness for the amended C7 at a concrete block chunk. -/
theorem claim_C7_amended_witness :
    1 ≤ (1 : Nat) ∧ (1 : Nat) ≤ 3 ∧
    ("aaa\nbbb\nccc".data : Str) =
      readFreshLines "aaa\nbbb\nccc".data 1 3 := by
  have h := claim_C7_amended_line_invariant "aaa\nbbb\nccc".data "f.txt"
    ⟨"aaa\nbbb\nccc".data, "f.txt", 1, 3, "block", none⟩
    (Or.inr (Or.inr (Or.inr (Or.inr (Or.inl (by decide))))))
  exact ⟨h.1, h.2.1, h.2.2 rfl⟩

-- ===================================================================
-- C6 : the minimum-chunk-size filter
-- ===================================================================

/--
C6: every chunk returned by `chunk_file` has stripped content of at
least `MIN_CHUNK_SIZE` characters; consequently a file whose whole
content is shorter than `MIN_CHUNK_SIZE` yields zero chunks, and an
empty or all-whitespace file yields zero chunks.
-/
theorem claim_C6_min_chunk_filter (ext fp : String) :
    (∀ (content : Str) (c : CodeChunk), c ∈ chunk_file ext content fp →
      MIN_CHUNK_SIZE ≤ (stripC c.content).length) ∧
    (∀ content : Str, content.length < MIN_CHUNK_SIZE →
      chunk_file ext content fp = []) ∧
    (∀ content : Str, (stripC content).isEmpty = true →
      chunk_file ext content fp = []) := by
  refine ⟨?_, ?_, ?_⟩
  · intro content c h
    exact (chunk_file_strategy_chunkOk ext content fp c h).2
  · intro content hlen
    unfold chunk_file
    split
    · rfl
    · simp only []
      rw [List.filter_eq_nil_iff]
      intro c hc
      have hok : ChunkOk content c := by
        split at hc
        · exact chunk_python_chunkOk content fp c hc
        · split at hc
          · exact chunk_javascript_chunkOk content fp c hc
          · split at hc
            · exact chunk_ruby_chunkOk content fp c hc
            · split at hc
              · exact chunk_c_style_chunkOk content fp c hc
              · exact chunk_simple_chunkOk content fp c hc
      have hle : (stripC c.content).length ≤ content.length :=
        le_trans (stripC_length_le _) hok.1
      simp only [decide_eq_true_eq]
      unfold MIN_CHUNK_SIZE at hlen ⊢
      omega
  · intro content hstrip
    unfold chunk_file
    rw [if_pos hstrip]

/-- Witness for C6: a 99-character code file (one character short of
`MIN_CHUNK_SIZE`) yields zero chunks, and an all-whitespace file
yields zero chunks. -/
theorem claim_C6_witness :
    chunk_file ".txt"
      "aaaaaaaaaabbbbbbbbbbccccccccccddddddddddeeeeeeeeeeffffffffffgggggggggghhhhhhhhhhiiiiiiiiiijjjjjjjjj".data
      "f.txt" = [] ∧
    chunk_file ".py" "   \n  ".data "f.py" = [] := by
  constructor
  · exact (claim_C6_min_chunk_filter ".txt" "f.txt").2.1 _ (by decide)
  · exact (claim_C6_min_chunk_filter ".py" "f.py").2.2 _ (by decide)

-- ===================================================================
-- C3 : the batch contract of get_or_compute_batch.  `batchSpecMerge`
-- is the reference result stated by the spec (cached contents filled
-- from the cache, the missing ones consuming the computed batch in
-- order); the implementation is proved equal to it.
-- ===================================================================

/-- The spec's batch result: walk the contents in order, take cached
vectors from the cache and missing vectors from the computed batch in
order. -/
def batchSpecMerge {A : Type} (lookupv : String → Option (List A)) :
    List String → List (List A) → List (List A)
  | [], _ => []
  | ct :: rest, outs =>
    match lookupv ct with
    | some v => v :: batchSpecMerge lookupv rest outs
    | none => outs.headD [] :: batchSpecMerge lookupv rest outs.tail

/-- The indices (from `i`) of the contents missing from the cache. -/
def missIdxs {A : Type} (h : String → String)
    (cache : List (String × List A)) : List String → Nat → List Nat
  | [], _ => []
  | ct :: rest, i =>
    if (dictLookup cache (h ct)).isNone then
      i :: missIdxs h cache rest (i + 1)
    else missIdxs h cache rest (i + 1)

/-- The fill loop after resolving each `missing_indices.index(idx)`
lookup: write each computed embedding at its index and cache it. -/
def fillSimpleGo {A : Type} (h : String → String) :
    List (List A) → EmbeddingCacheSt A →
    List ((Nat × String) × List A) → List (List A) × EmbeddingCacheSt A
  | es, c, [] => (es, c)
  | es, c, ((idx, ct), emb) :: rest =>
    fillSimpleGo h (es.set idx emb) (cache_put h c ct emb) rest

/-- Store a list of content/embedding pairs in the cache, in order. -/
def putList {A : Type} (h : String → String) :
    EmbeddingCacheSt A → List (String × List A) → EmbeddingCacheSt A
  | c, [] => c
  | c, (ct, emb) :: rest => putList h (cache_put h c ct emb) rest

theorem batchScanGo_spec {A : Type} (h : String → String)
    (c : EmbeddingCacheSt A) (contents : List String) (i : Nat) :
    ∃ hits misses,
      batchScanGo h c contents i =
        (contents.map (fun ct => (dictLookup c.cache (h ct)).getD []),
         missIdxs h c.cache contents i,
         contents.filter (fun ct => (dictLookup c.cache (h ct)).isNone),
         ⟨c.cache, hits, misses⟩) := by
  induction contents generalizing c i with
  | nil => exact ⟨c.hits, c.misses, rfl⟩
  | cons ct rest ih =>
    cases hl : dictLookup c.cache (h ct) with
    | some v =>
      obtain ⟨hits, misses, heq⟩ := ih ⟨c.cache, c.hits + 1, c.misses⟩ (i + 1)
      refine ⟨hits, misses, ?_⟩
      rw [batchScanGo]
      rw [show cache_get h c ct = (some v, ⟨c.cache, c.hits + 1, c.misses⟩) by
        unfold cache_get; rw [hl]]
      simp only [] at heq ⊢
      rw [heq]
      simp [missIdxs, hl]
    | none =>
      obtain ⟨hits, misses, heq⟩ := ih ⟨c.cache, c.hits, c.misses + 1⟩ (i + 1)
      refine ⟨hits, misses, ?_⟩
      rw [batchScanGo]
      rw [show cache_get h c ct = (none, ⟨c.cache, c.hits, c.misses + 1⟩) by
        unfold cache_get; rw [hl]]
      simp only [] at heq ⊢
      rw [heq]
      simp [missIdxs, hl]

theorem missIdxs_length {A : Type} (h : String → String)
    (cache : List (String × List A)) (contents : List String) (i : Nat) :
    (missIdxs h cache contents i).length =
      (contents.filter
        (fun ct => (dictLookup cache (h ct)).isNone)).length := by
  induction contents generalizing i with
  | nil => simp [missIdxs]
  | cons ct rest ih =>
    rw [missIdxs]
    by_cases hm : (dictLookup cache (h ct)).isNone
    · simp [hm, ih]
    · simp [hm, ih]

theorem missIdxs_bounds {A : Type} (h : String → String)
    (cache : List (String × List A)) (contents : List String) (i : Nat) :
    (∀ x ∈ missIdxs h cache contents i, i ≤ x) ∧
      List.Pairwise (· < ·) (missIdxs h cache contents i) := by
  induction contents generalizing i with
  | nil => simp [missIdxs]
  | cons ct rest ih =>
    rw [missIdxs]
    obtain ⟨ihb, ihp⟩ := ih (i + 1)
    by_cases hm : (dictLookup cache (h ct)).isNone
    · rw [if_pos hm]
      refine ⟨?_, ?_⟩
      · intro x hx
        rcases List.mem_cons.mp hx with rfl | hx2
        · exact le_refl _
        · exact le_trans (by omega) (ihb x hx2)
      · exact List.pairwise_cons.mpr ⟨fun x hx => by
          have := ihb x hx; omega, ihp⟩
    · rw [if_neg hm]
      exact ⟨fun x hx => le_trans (by omega) (ihb x hx), ihp⟩

theorem missIdxs_shift {A : Type} (h : String → String)
    (cache : List (String × List A)) (contents : List String) (i : Nat) :
    missIdxs h cache contents (i + 1) =
      (missIdxs h cache contents i).map (· + 1) := by
  induction contents generalizing i with
  | nil => simp [missIdxs]
  | cons ct rest ih =>
    rw [missIdxs, missIdxs]
    by_cases hm : (dictLookup cache (h ct)).isNone
    · simp only [hm, if_true, List.map_cons]
      rw [ih]
    · simp only [hm, Bool.false_eq_true, if_false]
      rw [ih]

theorem batchSpecMerge_length {A : Type} (lookupv : String → Option (List A))
    (contents : List String) (outs : List (List A)) :
    (batchSpecMerge lookupv contents outs).length = contents.length := by
  induction contents generalizing outs with
  | nil => simp [batchSpecMerge]
  | cons ct rest ih =>
    rw [batchSpecMerge.eq_def]
    cases hl : lookupv ct <;> simp [hl, ih]

theorem batchFillGo_eq_fillSimple {A : Type} (h : String → String)
    (mi : List Nat) (mc : List String) (outs : List (List A))
    (hnd : mi.Nodup) (hmc : mc.length = mi.length)
    (houts : outs.length = mi.length) :
    ∀ n k es (c : EmbeddingCacheSt A), mi.length - k ≤ n →
      batchFillGo h es c ((mi.drop k).zip (outs.drop k)) mi mc =
        some (fillSimpleGo h es c
          (((mi.drop k).zip (mc.drop k)).zip (outs.drop k))) := by
  intro n
  induction n with
  | zero =>
    intro k es c hk
    rw [List.drop_eq_nil_of_le (by omega : mi.length ≤ k)]
    simp [batchFillGo, fillSimpleGo]
  | succ n ihn =>
    intro k es c hk
    by_cases hklt : k < mi.length
    · rw [List.drop_eq_getElem_cons hklt,
        List.drop_eq_getElem_cons (show k < outs.length by omega),
        List.drop_eq_getElem_cons (show k < mc.length by omega),
        List.zip_cons_cons, List.zip_cons_cons, List.zip_cons_cons]
      rw [batchFillGo]
      rw [List.indexOf_getElem hnd k hklt, List.get?_eq_getElem?,
        List.getElem?_eq_getElem (show k < mc.length by omega)]
      simp only []
      rw [fillSimpleGo]
      exact ihn (k + 1) _ _ (by omega)
    · rw [List.drop_eq_nil_of_le (by omega : mi.length ≤ k)]
      simp [batchFillGo, fillSimpleGo]

theorem fillSimpleGo_cache {A : Type} (h : String → String) :
    ∀ (triples : List ((Nat × String) × List A)) es c,
      (fillSimpleGo h es c triples).2 =
        putList h c (triples.map (fun t => (t.1.2, t.2))) := by
  intro triples
  induction triples with
  | nil => intro es c; rfl
  | cons t rest ih =>
    intro es c
    obtain ⟨⟨i, ct⟩, emb⟩ := t
    rw [fillSimpleGo, List.map_cons, putList]
    exact ih _ _

theorem zipzip_map_snd {A : Type} :
    ∀ (mi : List Nat) (mc : List String) (outs : List (List A)),
      mc.length = mi.length →
      ((mi.zip mc).zip outs).map (fun t => (t.1.2, t.2)) = mc.zip outs := by
  intro mi
  induction mi with
  | nil =>
    intro mc outs hlen
    rw [List.length_eq_zero.mp hlen]
    rfl
  | cons i mi0 ih =>
    intro mc outs hlen
    cases mc with
    | nil => simp at hlen
    | cons ct mc0 =>
      cases outs with
      | nil => rfl
      | cons emb outs0 =>
        simp only [List.zip_cons_cons, List.map_cons]
        rw [ih mc0 outs0 (by simpa using hlen)]

theorem zipzip_shift_map {A : Type} :
    ∀ (mi : List Nat) (mc : List String) (outs : List (List A)),
      (((mi.map (· + 1)).zip mc).zip outs) =
        ((mi.zip mc).zip outs).map (fun t => ((t.1.1 + 1, t.1.2), t.2)) := by
  intro mi
  induction mi with
  | nil => intro mc outs; rfl
  | cons i mi0 ih =>
    intro mc outs
    cases mc with
    | nil => rfl
    | cons ct mc0 =>
      cases outs with
      | nil => rfl
      | cons emb outs0 =>
        simp only [List.map_cons, List.zip_cons_cons]
        rw [ih mc0 outs0]

theorem fillSimpleGo_shift {A : Type} (h : String → String) (v : List A) :
    ∀ (triples : List ((Nat × String) × List A)) es c,
      fillSimpleGo h (v :: es) c
          (triples.map (fun t => ((t.1.1 + 1, t.1.2), t.2))) =
        (v :: (fillSimpleGo h es c triples).1,
          (fillSimpleGo h es c triples).2) := by
  intro triples
  induction triples with
  | nil => intro es c; rfl
  | cons t rest ih =>
    intro es c
    obtain ⟨⟨i, ct⟩, emb⟩ := t
    simp only [List.map_cons, fillSimpleGo]
    rw [show (v :: es).set (i + 1) emb = v :: es.set i emb from rfl]
    exact ih _ _

theorem fillSimple_merge {A : Type} (h : String → String)
    (K : List (String × List A)) :
    ∀ (contents : List String) (outs : List (List A))
      (c : EmbeddingCacheSt A),
      (fillSimpleGo h
        (contents.map (fun ct => (dictLookup K (h ct)).getD [])) c
        (((missIdxs h K contents 0).zip
          (contents.filter
            (fun ct => (dictLookup K (h ct)).isNone))).zip outs)).1 =
      batchSpecMerge (fun ct => dictLookup K (h ct)) contents outs := by
  intro contents
  induction contents with
  | nil => intro outs c; rfl
  | cons ct rest ih =>
    intro outs c
    rw [batchSpecMerge.eq_def]
    cases hl : dictLookup K (h ct) with
    | some v =>
      simp only [List.map_cons, hl, Option.getD_some]
      rw [missIdxs, if_neg (by simp [hl]), missIdxs_shift,
        List.filter_cons, if_neg (by simp [hl]), zipzip_shift_map,
        fillSimpleGo_shift]
      simp only []
      rw [ih outs _]
    | none =>
      simp only [List.map_cons, hl, Option.getD_none]
      rw [missIdxs, if_pos (by simp [hl]), missIdxs_shift,
        List.filter_cons, if_pos (by simp [hl])]
      cases outs with
      | nil =>
        simp only [List.zip_cons_cons, List.zip_nil_right, fillSimpleGo]
        have h2 := ih [] c
        simp only [List.zip_nil_right, fillSimpleGo] at h2
        simp only [List.head?_nil, Option.getD_none, List.tail_nil]
        rw [← h2]
        rfl
      | cons emb outs0 =>
        rw [List.zip_cons_cons, List.zip_cons_cons, fillSimpleGo,
          List.set_cons_zero, zipzip_shift_map, fillSimpleGo_shift]
        simp only [List.headD_cons, List.tail_cons]
        rw [ih outs0 _]

theorem putList_preserves {A : Type} (h : String → String) :
    ∀ (pairs : List (String × List A)) (c : EmbeddingCacheSt A)
      (q : String), (dictLookup c.cache q).isSome →
      (dictLookup (putList h c pairs).cache q).isSome := by
  intro pairs
  induction pairs with
  | nil => intro c q hq; exact hq
  | cons p rest ih =>
    intro c q hq
    obtain ⟨ct, emb⟩ := p
    rw [putList]
    refine ih _ q ?_
    unfold cache_put
    by_cases hqk : q = h ct
    · subst hqk
      rw [dictLookup_dictInsert_self]
      simp
    · rw [dictLookup_dictInsert_ne _ _ _ _ hqk]
      exact hq

theorem putList_mem {A : Type} (h : String → String) :
    ∀ (pairs : List (String × List A)) (c : EmbeddingCacheSt A)
      (ct : String), ct ∈ pairs.map Prod.fst →
      (dictLookup (putList h c pairs).cache (h ct)).isSome := by
  intro pairs
  induction pairs with
  | nil => intro c ct hct; simp at hct
  | cons p rest ih =>
    intro c ct hct
    obtain ⟨ct0, emb⟩ := p
    rw [putList]
    rw [List.map_cons] at hct
    rcases List.mem_cons.mp hct with rfl | htail
    · refine putList_preserves h rest _ _ ?_
      unfold cache_put
      rw [dictLookup_dictInsert_self]
      simp
    · exact ih _ ct htail

theorem batchSpecMerge_all_hit {A : Type} (lookupv : String → Option (List A)) :
    ∀ (contents : List String),
      (∀ ct ∈ contents, (lookupv ct).isSome) → ∀ outs,
      batchSpecMerge lookupv contents outs =
        contents.map (fun ct => (lookupv ct).getD []) := by
  intro contents
  induction contents with
  | nil => intro _ outs; rfl
  | cons ct rest ih =>
    intro hall outs
    rw [batchSpecMerge.eq_def]
    cases hl : lookupv ct with
    | none =>
      exact absurd (hall ct (by simp)) (by simp [hl])
    | some v =>
      simp only [List.map_cons, hl, Option.getD_some]
      rw [ih (fun x hx => hall x (by simp [hx])) outs]

theorem cache_get_isSome {A : Type} (h : String → String)
    (c : EmbeddingCacheSt A) (ct : String) :
    ((cache_get h c ct).1).isSome = (dictLookup c.cache (h ct)).isSome := by
  unfold cache_get
  cases dictLookup c.cache (h ct) <;> rfl

/-- C3: `get_or_compute_batch` satisfies the batch contract.  When the
compute function returns one embedding per missing content (which the
source assumes via `zip(..., strict=True)`), the call returns one
embedding per input content in input order — cached contents are filled
from the cache and the missing ones from `computeFn`'s output in their
relative input order (captured by the spec-side merge
`batchSpecMerge`) — the missing contents are passed to `computeFn`
exactly once as a single order-preserving list (the call log is
`[missing]`, or empty when nothing was missing), and afterwards every
content of the batch — in particular every newly computed one — hits the
cache. -/
theorem claim_C3_batch_contract {A : Type} (h : String → String)
    (c : EmbeddingCacheSt A) (contents : List String)
    (computeFn : List String → List (List A))
    (hlen : (computeFn (contents.filter
        (fun ct => (dictLookup c.cache (h ct)).isNone))).length =
      (contents.filter
        (fun ct => (dictLookup c.cache (h ct)).isNone)).length) :
    ∃ hits misses c2,
      get_or_compute_batch h c contents computeFn =
        some (batchSpecMerge (fun ct => dictLookup c.cache (h ct)) contents
            (computeFn (contents.filter
              (fun ct => (dictLookup c.cache (h ct)).isNone))),
          hits, misses, c2,
          if (contents.filter
              (fun ct => (dictLookup c.cache (h ct)).isNone)).isEmpty
          then ([] : List (List String))
          else [contents.filter
              (fun ct => (dictLookup c.cache (h ct)).isNone)]) ∧
      (batchSpecMerge (fun ct => dictLookup c.cache (h ct)) contents
          (computeFn (contents.filter
            (fun ct => (dictLookup c.cache (h ct)).isNone)))).length =
        contents.length ∧
      ∀ ct ∈ contents, ((cache_get h c2 ct).1).isSome := by
  obtain ⟨hits0, misses0, hscan⟩ := batchScanGo_spec h c contents 0
  unfold get_or_compute_batch
  rw [hscan]
  simp only []
  by_cases hmc : (contents.filter
      (fun ct => (dictLookup c.cache (h ct)).isNone)).isEmpty
  · rw [if_pos hmc]
    have hnil : contents.filter
        (fun ct => (dictLookup c.cache (h ct)).isNone) = [] := by
      simpa [List.isEmpty_iff] using hmc
    have hall : ∀ ct ∈ contents, (dictLookup c.cache (h ct)).isSome := by
      intro ct hct
      have h2 := List.filter_eq_nil_iff.mp hnil ct hct
      cases hl : dictLookup c.cache (h ct) with
      | some v => rfl
      | none => simp [hl] at h2
    refine ⟨hits0, misses0, ⟨c.cache, hits0, misses0⟩, ?_,
      batchSpecMerge_length _ _ _, ?_⟩
    · rw [if_pos hmc, batchSpecMerge_all_hit _ contents hall]
    · intro ct hct
      rw [cache_get_isSome]
      exact hall ct hct
  · rw [if_neg hmc]
    have hmilen := missIdxs_length h c.cache contents 0
    have hlen2 : (computeFn (contents.filter
        (fun ct => (dictLookup c.cache (h ct)).isNone))).length =
        (missIdxs h c.cache contents 0).length := by omega
    rw [if_pos hlen2]
    have hnd : (missIdxs h c.cache contents 0).Nodup :=
      (missIdxs_bounds h c.cache contents 0).2.imp
        (fun hab => Nat.ne_of_lt hab)
    have hfill := batchFillGo_eq_fillSimple h
      (missIdxs h c.cache contents 0)
      (contents.filter (fun ct => (dictLookup c.cache (h ct)).isNone))
      (computeFn (contents.filter
        (fun ct => (dictLookup c.cache (h ct)).isNone)))
      hnd (by omega) (by omega)
      (missIdxs h c.cache contents 0).length 0
      (contents.map (fun ct => (dictLookup c.cache (h ct)).getD []))
      ⟨c.cache, hits0, misses0⟩ (by omega)
    simp only [List.drop_zero] at hfill
    rcases hF : fillSimpleGo h
        (contents.map (fun ct => (dictLookup c.cache (h ct)).getD []))
        (⟨c.cache, hits0, misses0⟩ : EmbeddingCacheSt A)
        (((missIdxs h c.cache contents 0).zip
          (contents.filter
            (fun ct => (dictLookup c.cache (h ct)).isNone))).zip
          (computeFn (contents.filter
            (fun ct => (dictLookup c.cache (h ct)).isNone)))) with ⟨es2, c2⟩
    rw [hF] at hfill
    rw [hfill]
    simp only []
    refine ⟨c2.hits, c2.misses, c2, ?_, batchSpecMerge_length _ _ _, ?_⟩
    · rw [if_neg hmc]
      have hes2 : es2 = batchSpecMerge
          (fun ct => dictLookup c.cache (h ct)) contents
          (computeFn (contents.filter
            (fun ct => (dictLookup c.cache (h ct)).isNone))) := by
        have h3 := fillSimple_merge h c.cache contents
          (computeFn (contents.filter
            (fun ct => (dictLookup c.cache (h ct)).isNone)))
          ⟨c.cache, hits0, misses0⟩
        rw [hF] at h3
        exact h3
      rw [hes2]
    · have hc2 : c2 = putList h ⟨c.cache, hits0, misses0⟩
          ((contents.filter
            (fun ct => (dictLookup c.cache (h ct)).isNone)).zip
            (computeFn (contents.filter
              (fun ct => (dictLookup c.cache (h ct)).isNone)))) := by
        have h4 := fillSimpleGo_cache h
          (((missIdxs h c.cache contents 0).zip
            (contents.filter
              (fun ct => (dictLookup c.cache (h ct)).isNone))).zip
            (computeFn (contents.filter
              (fun ct => (dictLookup c.cache (h ct)).isNone))))
          (contents.map (fun ct => (dictLookup c.cache (h ct)).getD []))
          ⟨c.cache, hits0, misses0⟩
        rw [hF] at h4
        rw [zipzip_map_snd _ _ _ (by omega)] at h4
        exact h4
      intro ct hct
      rw [cache_get_isSome, hc2]
      by_cases hcached : (dictLookup c.cache (h ct)).isSome
      · exact putList_preserves h _ ⟨c.cache, hits0, misses0⟩ (h ct) hcached
      · rw [Option.not_isSome_iff_eq_none] at hcached
        refine putList_mem h _ _ ct ?_
        rw [List.map_fst_zip _ _ (by omega)]
        exact List.mem_filter.mpr ⟨hct,
          show (dictLookup c.cache (h ct)).isNone = true by
            rw [hcached]; rfl⟩

/-- Witness for C3 at a concrete batch: a cache holding the entry for
"a", the batch `["a", "b"]`, and a compute function returning `[2]` for
each input content. -/
theorem claim_C3_witness :
    (((fun (l : List String) => l.map (fun _ => ([2] : List Nat)))
        ((["a", "b"] : List String).filter
          (fun ct => (dictLookup [("a", ([1] : List Nat))] ct).isNone))).length =
      ((["a", "b"] : List String).filter
        (fun ct => (dictLookup [("a", ([1] : List Nat))] ct).isNone)).length) ∧
    (∃ hits misses c2,
      get_or_compute_batch (fun s => s)
          (⟨[("a", [1])], 0, 0⟩ : EmbeddingCacheSt Nat) ["a", "b"]
          (fun l => l.map (fun _ => [2])) =
        some (batchSpecMerge
            (fun ct => dictLookup [("a", ([1] : List Nat))] ct) ["a", "b"]
            ((fun (l : List String) => l.map (fun _ => ([2] : List Nat)))
              ((["a", "b"] : List String).filter
                (fun ct => (dictLookup [("a", ([1] : List Nat))] ct).isNone))),
          hits, misses, c2,
          if ((["a", "b"] : List String).filter
              (fun ct => (dictLookup [("a", ([1] : List Nat))] ct).isNone)).isEmpty
          then ([] : List (List String))
          else [(["a", "b"] : List String).filter
              (fun ct => (dictLookup [("a", ([1] : List Nat))] ct).isNone)]) ∧
      (batchSpecMerge
          (fun ct => dictLookup [("a", ([1] : List Nat))] ct) ["a", "b"]
          ((fun (l : List String) => l.map (fun _ => ([2] : List Nat)))
            ((["a", "b"] : List String).filter
              (fun ct => (dictLookup [("a", ([1] : List Nat))] ct).isNone)))).length =
        (["a", "b"] : List String).length ∧
      ∀ ct ∈ (["a", "b"] : List String),
        ((cache_get (fun s => s) c2 ct).1).isSome) :=
  ⟨by rfl, claim_C3_batch_contract (fun s => s) ⟨[("a", [1])], 0, 0⟩
    ["a", "b"] (fun l => l.map (fun _ => [2])) (by rfl)⟩
